import Mathlib

/-!
Verification of the open-guard scanner core against its specification.

The development shallowly embeds the TypeScript sources:

* src/scoring (score-calculator.ts, weights.ts) — severity/confidence
  weighted subscores and the total score with its critical floor;
* src/policy (policy-merge.ts, policy-validator.ts) — deny-first policy
  merge and the approval-config normalization performed by validation;
* src/scanner (rule-engine.ts, finding-factory.ts, evidence.ts) — the
  per-file rule engine, finding identity, evidence extraction;
* src/ingest (file-discovery.ts) — gitignore-style rule evaluation and
  the symlink-safe directory walk.

Modelling conventions, used throughout and noted again at each definition:
JavaScript strings handled character-wise by the scanner are embedded as
List Char; Number arithmetic on scores is exact rational arithmetic (all
weights are small decimal fractions, so no floating point rounding is ever
observable at the scale the scoring code works at, and Math.round is
Mathlib's round, which rounds halves up exactly as JavaScript does);
Array.prototype.sort with a comparator is embedded as List.insertionSort
(a stable sort) over the corresponding relation, with localeCompare
modelled as the lexicographic order on the character sequences; a JavaScript Set
used for insertion-order deduplication is embedded as first-occurrence
deduplication of a list.
-/

namespace OpenGuard

/-- Characters of a JavaScript string, the scanner's working representation. -/
abbrev Chars := List Char

/-! ## Scanner data model (src/scanner/types.ts) -/

/-- Severity enum of src/scanner/types.ts. -/
inductive Severity where
  | info
  | low
  | medium
  | high
  | critical
deriving DecidableEq, Repr

/-- Confidence enum of src/scanner/types.ts. -/
inductive Confidence where
  | low
  | medium
  | high
deriving DecidableEq, Repr

/-- Evidence of src/scanner/types.ts. The source field named match is
called matchText here because match is a Lean keyword. -/
structure Evidence where
  path : Chars
  start_line : Nat
  end_line : Nat
  snippet : Chars
  matchText : Chars
deriving DecidableEq, Repr

/-- Finding of src/scanner/types.ts. -/
structure Finding where
  id : Chars
  rule_id : Chars
  severity : Severity
  category : Chars
  confidence : Confidence
  title : Chars
  description : Chars
  evidence : Evidence
  remediation : Chars
  tags : Option (List Chars)
deriving DecidableEq, Repr

/-! ## Scoring engine (src/scoring/weights.ts, src/scoring/score-calculator.ts) -/

/-- ScoreCategory enum of src/scoring/weights.ts. -/
inductive ScoreCategory where
  | shell
  | network
  | filesystem
  | credentials
deriving DecidableEq, Repr

/-- SEVERITY_POINTS of src/scoring/weights.ts. The record is keyed by the
five severity strings, so the lookup with its dead ?? 0 fallback is total. -/
def SEVERITY_POINTS : Severity → ℚ
  | .critical => 30
  | .high => 15
  | .medium => 8
  | .low => 3
  | .info => 1

/-- CONFIDENCE_WEIGHTS of src/scoring/weights.ts. -/
def CONFIDENCE_WEIGHTS : Confidence → ℚ
  | .high => 1
  | .medium => 7 / 10
  | .low => 2 / 5

/-- CATEGORY_WEIGHTS of src/scoring/weights.ts. -/
def CATEGORY_WEIGHTS : ScoreCategory → ℚ
  | .shell => 3 / 10
  | .network => 1 / 4
  | .filesystem => 1 / 5
  | .credentials => 1 / 4

/-- CATEGORY_MAP of src/scoring/weights.ts: the fixed category-string to
axis table; absent keys give none (the source reads the lookup with ?? ). -/
def CATEGORY_MAP (category : Chars) : Option ScoreCategory :=
  if category = "shell".data then some .shell
  else if category = "obfuscation".data then some .shell
  else if category = "network".data then some .network
  else if category = "supply-chain".data then some .network
  else if category = "filesystem".data then some .filesystem
  else if category = "macos".data then some .filesystem
  else if category = "windows".data then some .filesystem
  else if category = "credentials".data then some .credentials
  else if category = "gha".data then some .shell
  else none

/-- scoreCategoryForFinding of src/scoring/score-calculator.ts. -/
def scoreCategoryForFinding (f : Finding) : ScoreCategory :=
  if f.category ≠ "gha".data then (CATEGORY_MAP f.category).getD .shell
  else if f.rule_id = "OG-GHA-001".data then .credentials
  else .shell

/-- contributionForFinding of src/scoring/score-calculator.ts. -/
def contributionForFinding (f : Finding) : ℚ :=
  SEVERITY_POINTS f.severity * CONFIDENCE_WEIGHTS f.confidence

/-- Subscores of src/scoring/types.ts. -/
structure Subscores where
  shell : ℚ
  network : ℚ
  filesystem : ℚ
  credentials : ℚ
deriving DecidableEq, Repr

/-- Read one axis of a Subscores record. -/
def Subscores.get (s : Subscores) : ScoreCategory → ℚ
  | .shell => s.shell
  | .network => s.network
  | .filesystem => s.filesystem
  | .credentials => s.credentials

/-- Write one axis of a Subscores record (the subscores[category] update). -/
def Subscores.set (s : Subscores) : ScoreCategory → ℚ → Subscores
  | .shell, v => { s with shell := v }
  | .network, v => { s with network := v }
  | .filesystem, v => { s with filesystem := v }
  | .credentials, v => { s with credentials := v }

/-- ScoreResult of src/scoring/types.ts; total is the integer Math.round
returns. -/
structure ScoreResult where
  total : ℤ
  subscores : Subscores
  hasCritical : Bool
deriving DecidableEq, Repr

/-- One iteration of the findings loop in calculateScore: clamp the axis the
finding maps to at 100 and track whether a critical finding was seen. -/
def scoreStep (st : Subscores × Bool) (f : Finding) : Subscores × Bool :=
  let contribution := contributionForFinding f
  let category := scoreCategoryForFinding f
  (st.1.set category (min (st.1.get category + contribution) 100),
    st.2 || decide (f.severity = .critical))

/-- totalScore of src/scoring/score-calculator.ts: weighted sum, rounded,
capped at 100, then floored at 60 when a critical finding contributed. -/
def totalScore (s : Subscores) (hasCritical : Bool) : ℤ :=
  let weighted := s.shell * CATEGORY_WEIGHTS .shell
    + s.network * CATEGORY_WEIGHTS .network
    + s.filesystem * CATEGORY_WEIGHTS .filesystem
    + s.credentials * CATEGORY_WEIGHTS .credentials
  let score := min (round weighted) 100
  if hasCritical then max score 60 else score

/-- calculateScore of src/scoring/score-calculator.ts. -/
def calculateScore (findings : List Finding) : ScoreResult :=
  let st := findings.foldl scoreStep (⟨0, 0, 0, 0⟩, false)
  { total := totalScore st.1 st.2, subscores := st.1, hasCritical := st.2 }

/-! ### Scoring lemmas -/

theorem contribution_nonneg (f : Finding) : 0 ≤ contributionForFinding f := by
  unfold contributionForFinding
  cases f.severity <;> cases f.confidence <;> simp [SEVERITY_POINTS, CONFIDENCE_WEIGHTS] <;> norm_num

theorem subscores_get_set_same (s : Subscores) (c : ScoreCategory) (v : ℚ) :
    (s.set c v).get c = v := by
  cases c <;> rfl

theorem subscores_get_set_other (s : Subscores) (c c' : ScoreCategory) (v : ℚ)
    (h : c' ≠ c) : (s.set c v).get c' = s.get c' := by
  cases c <;> cases c' <;> first | rfl | exact absurd rfl h

theorem scoreStep_bounds (st : Subscores × Bool) (f : Finding)
    (h : ∀ c, 0 ≤ st.1.get c ∧ st.1.get c ≤ 100) :
    ∀ c, 0 ≤ (scoreStep st f).1.get c ∧ (scoreStep st f).1.get c ≤ 100 := by
  intro c
  unfold scoreStep
  by_cases hc : c = scoreCategoryForFinding f
  · subst hc
    rw [subscores_get_set_same]
    constructor
    · exact le_min (add_nonneg (h _).1 (contribution_nonneg f)) (by norm_num)
    · exact min_le_right _ _
  · rw [subscores_get_set_other _ _ _ _ hc]
    exact h c

theorem foldl_scoreStep_bounds (findings : List Finding) (st : Subscores × Bool)
    (h : ∀ c, 0 ≤ st.1.get c ∧ st.1.get c ≤ 100) :
    ∀ c, 0 ≤ (findings.foldl scoreStep st).1.get c ∧
      (findings.foldl scoreStep st).1.get c ≤ 100 := by
  induction findings generalizing st with
  | nil => exact h
  | cons f rest ih => exact ih _ (scoreStep_bounds st f h)

theorem foldl_scoreStep_critical (findings : List Finding) (st : Subscores × Bool) :
    (findings.foldl scoreStep st).2
      = (st.2 || findings.any fun f => decide (f.severity = .critical)) := by
  induction findings generalizing st with
  | nil => simp
  | cons f rest ih =>
    simp only [List.foldl_cons, List.any_cons]
    rw [ih]
    simp [scoreStep, Bool.or_assoc]

theorem calculateScore_subscores_bounds (findings : List Finding) :
    ∀ c, 0 ≤ (calculateScore findings).subscores.get c ∧
      (calculateScore findings).subscores.get c ≤ 100 := by
  intro c
  unfold calculateScore
  exact foldl_scoreStep_bounds findings _ (by intro c; cases c <;> simp [Subscores.get]) c

theorem totalScore_le_100 (s : Subscores) (b : Bool) : totalScore s b ≤ 100 := by
  unfold totalScore
  cases b with
  | false => exact min_le_right _ _
  | true =>
    simp only [if_true]
    exact max_le (min_le_right _ _) (by norm_num)

theorem totalScore_critical_eq_max (s : Subscores) :
    totalScore s true = max (totalScore s false) 60 := by
  simp [totalScore]

/-- C1: a findings list containing a critical-severity finding always totals
at least 60; the floor is literally max(computed, 60) applied on top of the
unfloored total (so an already higher computed total is never lowered), and
every total, floored or not, is at most 100. The theorem is about
calculateScore and totalScore of src/scoring/score-calculator.ts. -/
theorem criticalFloor_and_totalCap (findings : List Finding) :
    (calculateScore findings).total ≤ 100 ∧
    ((∃ f ∈ findings, f.severity = .critical) → 60 ≤ (calculateScore findings).total) ∧
    (∀ s : Subscores, totalScore s true = max (totalScore s false) 60) := by
  refine ⟨totalScore_le_100 _ _, ?_, totalScore_critical_eq_max⟩
  intro ⟨f, hf, hcrit⟩
  have hc : (List.foldl scoreStep (⟨0, 0, 0, 0⟩, false) findings).2 = true := by
    rw [foldl_scoreStep_critical]
    simp only [Bool.false_or, List.any_eq_true]
    exact ⟨f, hf, by simp [hcrit]⟩
  show 60 ≤ totalScore _ _
  rw [hc, totalScore_critical_eq_max]
  exact le_max_right _ _

/-- A concrete critical finding, used to instantiate the critical floor. -/
def criticalSample : Finding where
  id := "f".data
  rule_id := "OG-SHELL-001".data
  severity := .critical
  category := "shell".data
  confidence := .high
  title := "t".data
  description := "d".data
  evidence :=
    { path := "p".data, start_line := 1, end_line := 1, snippet := "s".data,
      matchText := "m".data }
  remediation := "r".data
  tags := none

/-- Concrete instantiation of the critical floor: a single critical finding
scores a total of at least 60. -/
theorem criticalFloor_and_totalCap_witness :
    (calculateScore [criticalSample]).total ≤ 100 ∧
    60 ≤ (calculateScore [criticalSample]).total := by
  refine ⟨(criticalFloor_and_totalCap _).1, (criticalFloor_and_totalCap _).2.1 ?_⟩
  exact ⟨criticalSample, List.mem_singleton.mpr rfl, rfl⟩

theorem totalScore_mono (s s' : Subscores) (b b' : Bool)
    (hs : ∀ c, s.get c ≤ s'.get c) (hb : b = true → b' = true) :
    totalScore s b ≤ totalScore s' b' := by
  have hw : s.shell * CATEGORY_WEIGHTS .shell + s.network * CATEGORY_WEIGHTS .network
      + s.filesystem * CATEGORY_WEIGHTS .filesystem
      + s.credentials * CATEGORY_WEIGHTS .credentials
      ≤ s'.shell * CATEGORY_WEIGHTS .shell + s'.network * CATEGORY_WEIGHTS .network
      + s'.filesystem * CATEGORY_WEIGHTS .filesystem
      + s'.credentials * CATEGORY_WEIGHTS .credentials := by
    have h1 := hs .shell
    have h2 := hs .network
    have h3 := hs .filesystem
    have h4 := hs .credentials
    simp only [Subscores.get] at h1 h2 h3 h4
    simp only [CATEGORY_WEIGHTS]
    nlinarith
  have hr : min (round (s.shell * CATEGORY_WEIGHTS .shell
      + s.network * CATEGORY_WEIGHTS .network
      + s.filesystem * CATEGORY_WEIGHTS .filesystem
      + s.credentials * CATEGORY_WEIGHTS .credentials)) 100
      ≤ min (round (s'.shell * CATEGORY_WEIGHTS .shell
      + s'.network * CATEGORY_WEIGHTS .network
      + s'.filesystem * CATEGORY_WEIGHTS .filesystem
      + s'.credentials * CATEGORY_WEIGHTS .credentials)) 100 := by
    refine min_le_min ?_ le_rfl
    rw [round_eq, round_eq]
    exact Int.floor_le_floor (by linarith)
  cases b with
  | false =>
    cases b' with
    | false => exact hr
    | true =>
      unfold totalScore
      simp only [if_false, if_true, Bool.false_eq_true]
      exact le_trans hr (le_max_left _ _)
  | true =>
    have hb' : b' = true := hb rfl
    subst hb'
    unfold totalScore
    simp only [if_true]
    exact max_le_max hr le_rfl

/-- C5: appending one finding to a findings list never decreases the
subscore of the axis that finding maps to, nor the total; and every axis
subscore and the total stay at most 100. About calculateScore of
src/scoring/score-calculator.ts. -/
theorem scoring_monotone (findings : List Finding) (f : Finding) :
    (calculateScore findings).subscores.get (scoreCategoryForFinding f)
      ≤ (calculateScore (findings ++ [f])).subscores.get (scoreCategoryForFinding f) ∧
    (calculateScore findings).total ≤ (calculateScore (findings ++ [f])).total ∧
    (∀ c, (calculateScore findings).subscores.get c ≤ 100) ∧
    (calculateScore findings).total ≤ 100 := by
  have hbounds := foldl_scoreStep_bounds findings (⟨0, 0, 0, 0⟩, false)
    (by intro c; cases c <;> simp [Subscores.get])
  have happend : (findings ++ [f]).foldl scoreStep (⟨0, 0, 0, 0⟩, false)
      = scoreStep (findings.foldl scoreStep (⟨0, 0, 0, 0⟩, false)) f := by
    rw [List.foldl_append]
    rfl
  set st := findings.foldl scoreStep (⟨0, 0, 0, 0⟩, false) with hst
  have hgetmono : ∀ c, st.1.get c ≤ (scoreStep st f).1.get c := by
    intro c
    unfold scoreStep
    by_cases hc : c = scoreCategoryForFinding f
    · subst hc
      rw [subscores_get_set_same]
      exact le_min (le_add_of_nonneg_right (contribution_nonneg f)) (hbounds _).2
    · rw [subscores_get_set_other _ _ _ _ hc]
  refine ⟨?_, ?_, fun c => (hbounds c).2, totalScore_le_100 _ _⟩
  · show st.1.get _ ≤ ((findings ++ [f]).foldl scoreStep _).1.get _
    rw [happend]
    exact hgetmono _
  · show totalScore st.1 st.2 ≤ totalScore _ _
    rw [happend]
    refine totalScore_mono _ _ _ _ hgetmono ?_
    intro h2
    simp [scoreStep, h2]

/-! ## Policy data model (src/policy/types.ts) -/

/-- ApprovalMode enum of src/policy/types.ts; the string value 2-step is
spelled twoStep. -/
inductive ApprovalMode where
  | auto
  | prompt
  | twoStep
  | deny
deriving DecidableEq, Repr

/-- ApprovalCategory enum of src/policy/types.ts. -/
inductive ApprovalCategory where
  | shell_exec
  | new_domain
  | credential_paths
  | file_write
  | elevated_privilege
deriving DecidableEq, Repr

/-- The string value of an ApprovalCategory (the enum values of the source). -/
def catString : ApprovalCategory → String
  | .shell_exec => "shell_exec"
  | .new_domain => "new_domain"
  | .credential_paths => "credential_paths"
  | .file_write => "file_write"
  | .elevated_privilege => "elevated_privilege"

/-- PolicyMetadata of src/policy/types.ts. -/
structure PolicyMetadata where
  name : Option String
  description : Option String
  created : Option String
  author : Option String
deriving DecidableEq, Repr

/-- The defaults.action value, allow or deny. -/
inductive DefaultAction where
  | allow
  | deny
deriving DecidableEq, Repr

/-- PolicyDefaults of src/policy/types.ts. -/
structure PolicyDefaults where
  action : DefaultAction
  require_approval_for : List ApprovalCategory
deriving DecidableEq, Repr

/-- CommandRule of src/policy/types.ts. -/
structure CommandRule where
  cmd : String
  args : Option (List String)
  description : Option String
deriving DecidableEq, Repr

/-- PathRules of src/policy/types.ts. -/
structure PathRules where
  read : List String
  write : List String
deriving DecidableEq, Repr

/-- NetworkRules of src/policy/types.ts; ports are validated integers in
[1, 65535], embedded as Nat. -/
structure NetworkRules where
  domains : List String
  ports : List Nat
deriving DecidableEq, Repr

/-- AllowRules of src/policy/types.ts. -/
structure AllowRules where
  commands : List CommandRule
  paths : PathRules
  network : NetworkRules
deriving DecidableEq, Repr

/-- The deny.network object of src/policy/types.ts (domains only). -/
structure DenyNetworkRules where
  domains : List String
deriving DecidableEq, Repr

/-- DenyRules of src/policy/types.ts. -/
structure DenyRules where
  commands : List CommandRule
  paths : List String
  network : DenyNetworkRules
deriving DecidableEq, Repr

/-- ApprovalConfig of src/policy/types.ts. -/
structure ApprovalConfig where
  mode : ApprovalMode
  except_allowlisted : Bool
deriving DecidableEq, Repr

/-- Approvals of src/policy/types.ts. -/
structure Approvals where
  shell_exec : ApprovalConfig
  new_domain : ApprovalConfig
  credential_paths : ApprovalConfig
  file_write : ApprovalConfig
  elevated_privilege : ApprovalConfig
deriving DecidableEq, Repr

/-- Policy of src/policy/types.ts. The version field is the literal type
"v1" (a singleton), so it is omitted from the embedding. -/
structure Policy where
  metadata : Option PolicyMetadata
  defaults : PolicyDefaults
  allow : AllowRules
  deny : DenyRules
  approvals : Approvals
deriving DecidableEq, Repr

/-! ## Policy merge (src/policy/policy-merge.ts) -/

/-- The strict lexicographic order on strings (character-wise on code
points), the model of a negative localeCompare result. -/
def jsStrLt (a b : String) : Prop := List.Lex (· < ·) a.data b.data

/-- The reflexive closure of jsStrLt, the model of a non-positive
localeCompare result (the relation the sort comparators induce). -/
def jsStrLe (a b : String) : Prop := jsStrLt a b ∨ a = b

instance : DecidableRel jsStrLt := fun a b => by
  unfold jsStrLt
  infer_instance

instance : DecidableRel jsStrLe := fun a b => by
  unfold jsStrLe
  infer_instance

theorem string_eq_of_data_eq {a b : String} (h : a.data = b.data) : a = b := by
  cases a
  cases b
  exact congrArg String.mk h

theorem jsStrLt_trans {a b c : String} (h1 : jsStrLt a b) (h2 : jsStrLt b c) :
    jsStrLt a c := by
  haveI : IsTrans (List Char) (List.Lex (· < ·)) := inferInstance
  exact Trans.trans (r := List.Lex (· < ·)) h1 h2

theorem jsStrLt_ne {a b : String} (h : jsStrLt a b) : a ≠ b := by
  intro he
  subst he
  haveI : IsIrrefl (List Char) (List.Lex (· < ·)) := inferInstance
  exact irrefl (r := List.Lex (· < ·)) a.data h

theorem jsStrLt_asymm {a b : String} (h1 : jsStrLt a b) (h2 : jsStrLt b a) : False := by
  haveI : IsAsymm (List Char) (List.Lex (· < ·)) := inferInstance
  exact asymm (r := List.Lex (· < ·)) h1 h2

theorem jsStr_trichotomy (a b : String) : jsStrLt a b ∨ a = b ∨ jsStrLt b a := by
  haveI : IsTrichotomous (List Char) (List.Lex (· < ·)) := inferInstance
  rcases trichotomous (r := List.Lex (· < ·)) a.data b.data with h | h | h
  · exact Or.inl h
  · exact Or.inr (Or.inl (string_eq_of_data_eq h))
  · exact Or.inr (Or.inr h)

instance : IsTotal String jsStrLe where
  total a b := by
    rcases jsStr_trichotomy a b with h | h | h
    · exact Or.inl (Or.inl h)
    · exact Or.inl (Or.inr h)
    · exact Or.inr (Or.inl h)

instance : IsTrans String jsStrLe where
  trans a b c hab hbc := by
    rcases hab with h1 | h1
    · rcases hbc with h2 | h2
      · exact Or.inl (jsStrLt_trans h1 h2)
      · exact Or.inl (h2 ▸ h1)
    · exact h1 ▸ hbc

/-- The NUL separator character used by commandKey. -/
def nulStr : String := String.singleton (Char.ofNat 0)

/-- commandKey of src/policy/policy-merge.ts: the command and its arguments
joined with NUL separators. -/
def commandKey (rule : CommandRule) : String :=
  let args := match rule.args with
    | some as => String.intercalate nulStr as
    | none => ""
  rule.cmd ++ nulStr ++ args

/-- The argument half of compareCommandRules (args joined with NUL, empty
when absent). -/
def argsJoined (rule : CommandRule) : String :=
  match rule.args with
  | some as => String.intercalate nulStr as
  | none => ""

/-- The ordering compareCommandRules of src/policy/policy-merge.ts induces:
by cmd first (localeCompare modelled as the lexicographic order), then by
the NUL-joined arguments. -/
def cmdLe (a b : CommandRule) : Prop :=
  jsStrLt a.cmd b.cmd ∨ (a.cmd = b.cmd ∧ jsStrLe (argsJoined a) (argsJoined b))

instance : DecidableRel cmdLe := fun a b => by
  unfold cmdLe
  infer_instance

instance : IsTotal CommandRule cmdLe where
  total a b := by
    rcases jsStr_trichotomy a.cmd b.cmd with h | h | h
    · exact Or.inl (Or.inl h)
    · rcases total_of jsStrLe (argsJoined a) (argsJoined b) with h2 | h2
      · exact Or.inl (Or.inr ⟨h, h2⟩)
      · exact Or.inr (Or.inr ⟨h.symm, h2⟩)
    · exact Or.inr (Or.inl h)

instance : IsTrans CommandRule cmdLe where
  trans a b c hab hbc := by
    rcases hab with h1 | ⟨e1, a1⟩
    · rcases hbc with h2 | ⟨e2, _⟩
      · exact Or.inl (jsStrLt_trans h1 h2)
      · exact Or.inl (e2 ▸ h1)
    · rcases hbc with h2 | ⟨e2, a2⟩
      · exact Or.inl (e1 ▸ h2)
      · exact Or.inr ⟨e1.trans e2, trans_of jsStrLe a1 a2⟩

/-- APPROVAL_ORDER of src/policy/policy-merge.ts. -/
def APPROVAL_ORDER : ApprovalMode → Nat
  | .auto => 0
  | .prompt => 1
  | .twoStep => 2
  | .deny => 3

/-- APPROVAL_SORT of src/policy/policy-merge.ts. -/
def APPROVAL_SORT : List ApprovalCategory :=
  [.shell_exec, .new_domain, .credential_paths, .file_write, .elevated_privilege]

/-- The indexOf lookup sortByCategory performs (-1 when absent, as in
JavaScript; every category is in APPROVAL_SORT, so -1 never arises). -/
def catIndexOf (c : ApprovalCategory) : Int :=
  if c ∈ APPROVAL_SORT then (APPROVAL_SORT.indexOf c : Int) else -1

/-- sortByCategory of src/policy/policy-merge.ts as an integer comparator
(localeCompare on the enum strings modelled as lexicographic comparison). -/
def sortByCategory (a b : ApprovalCategory) : Int :=
  let ai := catIndexOf a
  let bi := catIndexOf b
  if ai = -1 ∧ bi = -1 then
    if jsStrLt (catString a) (catString b) then -1
    else if catString a = catString b then 0 else 1
  else if ai = -1 then 1
  else if bi = -1 then -1
  else ai - bi

/-- The ordering the sortByCategory comparator induces on categories. -/
def catLe (a b : ApprovalCategory) : Prop := sortByCategory a b ≤ 0

instance : DecidableRel catLe := fun a b => by
  unfold catLe
  infer_instance

instance : IsTotal ApprovalCategory catLe where
  total a b := by cases a <;> cases b <;> simp [catLe] <;> decide

instance : IsTrans ApprovalCategory catLe where
  trans a b c hab hbc := by
    revert hab hbc
    cases a <;> cases b <;> cases c <;> decide

/-- First-occurrence deduplication with respect to a key, the embedding of a
JavaScript Set (or Map keyed by key) that is filled in list order and then
iterated in insertion order. -/
def dedupByKey {α κ : Type} [DecidableEq κ] (key : α → κ) : List α → List α
  | [] => []
  | x :: xs => x :: (dedupByKey key xs).filter fun y => key y ≠ key x

/-- mergeStringArray of src/policy/policy-merge.ts: set union in insertion
order, then sort (localeCompare modelled as the String order). -/
def mergeStringArray (base generated : List String) : List String :=
  List.insertionSort jsStrLe (dedupByKey id (base ++ generated))

/-- mergeNumberArray of src/policy/policy-merge.ts (numeric sort). -/
def mergeNumberArray (base generated : List Nat) : List Nat :=
  List.insertionSort (· ≤ ·) (dedupByKey id (base ++ generated))

/-- mergeCommandRules of src/policy/policy-merge.ts: first writer wins per
commandKey, output sorted by compareCommandRules. -/
def mergeCommandRules (base generated : List CommandRule) : List CommandRule :=
  List.insertionSort cmdLe (dedupByKey commandKey (base ++ generated))

/-- mergeMetadata of src/policy/policy-merge.ts (base wins when present). -/
def mergeMetadata (base generated : Option PolicyMetadata) : Option PolicyMetadata :=
  match base with
  | some m => some m
  | none => generated

/-- mergeDefaults of src/policy/policy-merge.ts. -/
def mergeDefaults (base generated : PolicyDefaults) : PolicyDefaults :=
  let action : DefaultAction :=
    if base.action = .deny ∨ generated.action = .deny then .deny else .allow
  { action := action,
    require_approval_for :=
      List.insertionSort catLe
        (dedupByKey id (base.require_approval_for ++ generated.require_approval_for)) }

/-- mergePaths of src/policy/policy-merge.ts. -/
def mergePaths (base generated : PathRules) : PathRules :=
  { read := mergeStringArray base.read generated.read,
    write := mergeStringArray base.write generated.write }

/-- mergeNetwork of src/policy/policy-merge.ts. -/
def mergeNetwork (base generated : NetworkRules) : NetworkRules :=
  { domains := mergeStringArray base.domains generated.domains,
    ports := mergeNumberArray base.ports generated.ports }

/-- mergeAllow of src/policy/policy-merge.ts. -/
def mergeAllow (base generated : AllowRules) : AllowRules :=
  { commands := mergeCommandRules base.commands generated.commands,
    paths := mergePaths base.paths generated.paths,
    network := mergeNetwork base.network generated.network }

/-- mergeDeny of src/policy/policy-merge.ts. -/
def mergeDeny (base generated : DenyRules) : DenyRules :=
  { commands := mergeCommandRules base.commands generated.commands,
    paths := mergeStringArray base.paths generated.paths,
    network := { domains := mergeStringArray base.network.domains generated.network.domains } }

/-- mergeApprovalConfig of src/policy/policy-merge.ts: keep the mode whose
APPROVAL_ORDER is larger (base on ties) and AND the exception flags. -/
def mergeApprovalConfig (base generated : ApprovalConfig) : ApprovalConfig :=
  { mode :=
      if APPROVAL_ORDER generated.mode ≤ APPROVAL_ORDER base.mode then base.mode
      else generated.mode,
    except_allowlisted := base.except_allowlisted && generated.except_allowlisted }

/-- mergeApprovals of src/policy/policy-merge.ts. -/
def mergeApprovals (base generated : Approvals) : Approvals :=
  { shell_exec := mergeApprovalConfig base.shell_exec generated.shell_exec,
    new_domain := mergeApprovalConfig base.new_domain generated.new_domain,
    credential_paths := mergeApprovalConfig base.credential_paths generated.credential_paths,
    file_write := mergeApprovalConfig base.file_write generated.file_write,
    elevated_privilege := mergeApprovalConfig base.elevated_privilege generated.elevated_privilege }

/-- removeDeniedAllows of src/policy/policy-merge.ts: drop every allow entry
whose key appears in the deny section, then sort each list again. -/
def removeDeniedAllows (allow : AllowRules) (deny : DenyRules) : AllowRules :=
  let deniedCommandKeys := deny.commands.map commandKey
  let deniedPaths := deny.paths
  let deniedDomains := deny.network.domains
  { commands :=
      List.insertionSort cmdLe
        (allow.commands.filter fun rule => commandKey rule ∉ deniedCommandKeys),
    paths :=
      { read :=
          List.insertionSort jsStrLe (allow.paths.read.filter fun p => p ∉ deniedPaths),
        write :=
          List.insertionSort jsStrLe (allow.paths.write.filter fun p => p ∉ deniedPaths) },
    network :=
      { domains :=
          List.insertionSort jsStrLe
            (allow.network.domains.filter fun d => d ∉ deniedDomains),
        ports := List.insertionSort (· ≤ ·) allow.network.ports } }

/-- mergePolicy of src/policy/policy-merge.ts. -/
def mergePolicy (base generated : Policy) : Policy :=
  let metadata := mergeMetadata base.metadata generated.metadata
  let defaults := mergeDefaults base.defaults generated.defaults
  let allow := mergeAllow base.allow generated.allow
  let deny := mergeDeny base.deny generated.deny
  let approvals := mergeApprovals base.approvals generated.approvals
  let normalizedAllow := removeDeniedAllows allow deny
  { metadata := metadata,
    defaults := defaults,
    allow := normalizedAllow,
    deny := deny,
    approvals := approvals }

/-! ### Deduplication lemmas -/

theorem mem_of_mem_dedupByKey {α κ : Type} [DecidableEq κ] (key : α → κ)
    {x : α} : ∀ {l : List α}, x ∈ dedupByKey key l → x ∈ l := by
  intro l
  induction l with
  | nil => simp [dedupByKey]
  | cons a rest ih =>
    intro hx
    rcases List.mem_cons.mp hx with h | h
    · exact h ▸ List.mem_cons_self _ _
    · exact List.mem_cons_of_mem _ (ih (List.mem_of_mem_filter h))

theorem key_mem_dedupByKey {α κ : Type} [DecidableEq κ] (key : α → κ)
    {k : κ} : ∀ {l : List α}, k ∈ (dedupByKey key l).map key ↔ k ∈ l.map key := by
  intro l
  induction l with
  | nil => simp [dedupByKey]
  | cons a rest ih =>
    simp only [dedupByKey, List.map_cons, List.mem_cons]
    constructor
    · rintro (h | h)
      · exact Or.inl h
      · obtain ⟨y, hy, hky⟩ := List.mem_map.mp h
        have hmem : key y ∈ (dedupByKey key rest).map key :=
          List.mem_map_of_mem key (List.mem_of_mem_filter hy)
        exact Or.inr (ih.mp (hky ▸ hmem))
    · rintro (h | h)
      · exact Or.inl h
      · by_cases hk : k = key a
        · exact Or.inl hk
        · obtain ⟨y, hy, hky⟩ := List.mem_map.mp (ih.mpr h)
          refine Or.inr (List.mem_map.mpr ⟨y, List.mem_filter.mpr ⟨hy, ?_⟩, hky⟩)
          simp only [ne_eq, decide_eq_true_eq]
          exact fun he => hk (hky ▸ he ▸ rfl)

theorem pairwise_key_ne_dedupByKey {α κ : Type} [DecidableEq κ] (key : α → κ) :
    ∀ (l : List α), (dedupByKey key l).Pairwise fun a b => key a ≠ key b := by
  intro l
  induction l with
  | nil => simp [dedupByKey]
  | cons a rest ih =>
    simp only [dedupByKey, List.pairwise_cons]
    constructor
    · intro y hy
      have := (List.mem_filter.mp hy).2
      simp only [ne_eq, decide_eq_true_eq] at this
      exact fun he => this (he ▸ rfl)
    · exact ih.filter _

theorem dedupByKey_eq_self {α κ : Type} [DecidableEq κ] (key : α → κ)
    {l : List α} (h : l.Pairwise fun a b => key a ≠ key b) :
    dedupByKey key l = l := by
  induction l with
  | nil => rfl
  | cons a rest ih =>
    rcases List.pairwise_cons.mp h with ⟨ha, hrest⟩
    simp only [dedupByKey, List.cons.injEq, true_and]
    rw [ih hrest]
    refine List.filter_eq_self.mpr ?_
    intro y hy
    simp only [ne_eq, decide_eq_true_eq]
    exact fun he => ha y hy he.symm

theorem dedupByKey_append {α κ : Type} [DecidableEq κ] (key : α → κ) :
    ∀ (l₁ l₂ : List α), dedupByKey key (l₁ ++ l₂)
      = dedupByKey key l₁ ++ (dedupByKey key l₂).filter fun y => key y ∉ l₁.map key := by
  intro l₁
  induction l₁ with
  | nil =>
    intro l₂
    simp [dedupByKey, List.filter_eq_self]
  | cons a rest ih =>
    intro l₂
    show dedupByKey key (a :: (rest ++ l₂)) = _
    simp only [dedupByKey]
    rw [ih, List.filter_append, List.filter_filter, List.cons_append]
    congr 1
    congr 1
    refine List.filter_congr ?_
    intro y _
    simp only [List.map_cons, List.mem_cons, ne_eq]
    by_cases h1 : key y = key a <;> by_cases h2 : key y ∈ List.map key rest <;>
      simp [h1, h2]

theorem dedupByKey_append_self {α κ : Type} [DecidableEq κ] (key : α → κ)
    {l : List α} (h : l.Pairwise fun a b => key a ≠ key b) :
    dedupByKey key (l ++ l) = l := by
  rw [dedupByKey_append, dedupByKey_eq_self key h]
  have : (dedupByKey key l).filter (fun y => key y ∉ l.map key) = [] := by
    refine List.filter_eq_nil_iff.mpr ?_
    intro y hy
    simp only [decide_eq_true_eq, not_not, Decidable.not_not]
    exact List.mem_map_of_mem key (mem_of_mem_dedupByKey key hy)
  rw [dedupByKey_eq_self key h] at this
  rw [this, List.append_nil]

/-! ### Merge membership lemmas -/

theorem mem_mergeStringArray {a b : List String} {s : String} :
    s ∈ mergeStringArray a b ↔ s ∈ a ∨ s ∈ b := by
  unfold mergeStringArray
  rw [List.mem_insertionSort]
  constructor
  · intro h
    have := mem_of_mem_dedupByKey id h
    simpa using this
  · intro h
    have : s ∈ (a ++ b).map id := by simpa using h
    have := (key_mem_dedupByKey id).mpr this
    simpa using this

theorem key_mem_mergeCommandRules {b g : List CommandRule} {k : String} :
    k ∈ (mergeCommandRules b g).map commandKey ↔ k ∈ (b ++ g).map commandKey := by
  unfold mergeCommandRules
  rw [((List.perm_insertionSort cmdLe _).map commandKey).mem_iff]
  exact key_mem_dedupByKey commandKey

/-- C3: in a merged policy, deny dominates allow: every command entry (keyed
by command plus NUL-joined arguments), every path and every domain present
in the union of the two deny sections is absent from the merged allow
section. About mergePolicy and removeDeniedAllows of
src/policy/policy-merge.ts. -/
theorem denyDominance (base generated : Policy) :
    (∀ r : CommandRule, r ∈ base.deny.commands ++ generated.deny.commands →
      ∀ a ∈ (mergePolicy base generated).allow.commands, commandKey a ≠ commandKey r) ∧
    (∀ p : String, p ∈ base.deny.paths ++ generated.deny.paths →
      p ∉ (mergePolicy base generated).allow.paths.read ∧
      p ∉ (mergePolicy base generated).allow.paths.write) ∧
    (∀ d : String, d ∈ base.deny.network.domains ++ generated.deny.network.domains →
      d ∉ (mergePolicy base generated).allow.network.domains) := by
  refine ⟨?_, ?_, ?_⟩
  · intro r hr a ha heq
    have hden : commandKey r ∈ (mergeDeny base.deny generated.deny).commands.map commandKey := by
      unfold mergeDeny
      exact key_mem_mergeCommandRules.mpr (List.mem_map_of_mem commandKey hr)
    simp only [mergePolicy, removeDeniedAllows] at ha
    rw [List.mem_insertionSort] at ha
    have hpred := (List.mem_filter.mp ha).2
    simp only [decide_eq_true_eq] at hpred
    exact hpred (heq ▸ hden)
  · intro p hp
    have hden : p ∈ (mergeDeny base.deny generated.deny).paths := by
      unfold mergeDeny
      simp only
      rw [mem_mergeStringArray]
      simpa using hp
    constructor
    · intro ha
      simp only [mergePolicy, removeDeniedAllows] at ha
      rw [List.mem_insertionSort] at ha
      have hpred := (List.mem_filter.mp ha).2
      simp only [decide_eq_true_eq] at hpred
      exact hpred hden
    · intro ha
      simp only [mergePolicy, removeDeniedAllows] at ha
      rw [List.mem_insertionSort] at ha
      have hpred := (List.mem_filter.mp ha).2
      simp only [decide_eq_true_eq] at hpred
      exact hpred hden
  · intro d hd ha
    have hden : d ∈ (mergeDeny base.deny generated.deny).network.domains := by
      unfold mergeDeny
      simp only
      rw [mem_mergeStringArray]
      simpa using hd
    simp only [mergePolicy, removeDeniedAllows] at ha
    rw [List.mem_insertionSort] at ha
    have hpred := (List.mem_filter.mp ha).2
    simp only [decide_eq_true_eq] at hpred
    exact hpred hden

/-! ### Approval merge (C6) -/

/-- What the spec asks of a merged approval entry: its APPROVAL_ORDER rank is
the maximum of the two inputs (so the mode is the stricter one under
auto < prompt < 2-step < deny), the mode is one of the two inputs, and the
exception flag is the conjunction of the inputs. -/
def approvalMergeSpec (m x y : ApprovalConfig) : Prop :=
  APPROVAL_ORDER m.mode = max (APPROVAL_ORDER x.mode) (APPROVAL_ORDER y.mode) ∧
  (m.mode = x.mode ∨ m.mode = y.mode) ∧
  m.except_allowlisted = (x.except_allowlisted && y.except_allowlisted)

theorem mergeApprovalConfig_spec (x y : ApprovalConfig) :
    approvalMergeSpec (mergeApprovalConfig x y) x y := by
  obtain ⟨xm, xe⟩ := x
  obtain ⟨ym, ye⟩ := y
  refine ⟨?_, ?_, rfl⟩
  · cases xm <;> cases ym <;> rfl
  · cases xm <;> cases ym <;> first | exact Or.inl rfl | exact Or.inr rfl

/-- C6: for each of the five approval categories, the merged policy keeps
the stricter mode under the total order auto < prompt < 2-step < deny
(realized by the APPROVAL_ORDER ranks 0 < 1 < 2 < 3), and grants
except_allowlisted only when both inputs grant it (logical AND). About
mergePolicy, mergeApprovals, mergeApprovalConfig and APPROVAL_ORDER of
src/policy/policy-merge.ts. -/
theorem approvals_strictest (base generated : Policy) :
    approvalMergeSpec (mergePolicy base generated).approvals.shell_exec
      base.approvals.shell_exec generated.approvals.shell_exec ∧
    approvalMergeSpec (mergePolicy base generated).approvals.new_domain
      base.approvals.new_domain generated.approvals.new_domain ∧
    approvalMergeSpec (mergePolicy base generated).approvals.credential_paths
      base.approvals.credential_paths generated.approvals.credential_paths ∧
    approvalMergeSpec (mergePolicy base generated).approvals.file_write
      base.approvals.file_write generated.approvals.file_write ∧
    approvalMergeSpec (mergePolicy base generated).approvals.elevated_privilege
      base.approvals.elevated_privilege generated.approvals.elevated_privilege :=
  ⟨mergeApprovalConfig_spec _ _, mergeApprovalConfig_spec _ _, mergeApprovalConfig_spec _ _,
    mergeApprovalConfig_spec _ _, mergeApprovalConfig_spec _ _⟩

/-! ## Approval-config validation (src/policy/policy-validator.ts) -/

/-- A raw JavaScript value as parseApprovalConfig inspects it: a string, a
boolean, or anything else. -/
inductive RawValue where
  | str (s : String)
  | boolVal (b : Bool)
  | other
deriving DecidableEq, Repr

/-- A raw approvals.* entry that is an object: its mode value and its
except_allowlisted value (none models an absent key, i.e. undefined), plus
the keys present on the object beyond the two assertNoExtraKeys allows. -/
structure RawApprovalConfig where
  mode : Option RawValue
  except_allowlisted : Option RawValue
  extraKeys : List String
deriving DecidableEq, Repr

/-- APPROVAL_MODES of src/policy/policy-validator.ts (the valid mode
strings). -/
def APPROVAL_MODES : List String := ["auto", "prompt", "2-step", "deny"]

/-- The ApprovalMode a valid mode string denotes. -/
def strToApprovalMode (s : String) : ApprovalMode :=
  if s = "auto" then .auto
  else if s = "prompt" then .prompt
  else if s = "2-step" then .twoStep
  else .deny

/-- parseApprovalConfig of src/policy/policy-validator.ts: non-objects
error out with the deny/false placeholder; on objects, extra keys and an
invalid mode and a non-boolean except_allowlisted each append an error, the
result keeps a valid mode (deny otherwise), and except_allowlisted defaults
to true whenever it is not a boolean - in particular when the key is
absent. -/
def parseApprovalConfig (input : Option RawApprovalConfig) (path : String)
    (errors : List String) : ApprovalConfig × List String :=
  match input with
  | none => ({ mode := .deny, except_allowlisted := false },
      errors ++ [path ++ " must be an object"])
  | some r =>
    let errors1 := errors ++ r.extraKeys.map fun k =>
      path ++ " contains unsupported field " ++ k
    let modeOk : Bool := match r.mode with
      | some (.str s) => s ∈ APPROVAL_MODES
      | _ => false
    let errors2 := if modeOk then errors1
      else errors1 ++ [path ++ ".mode must be a valid approval mode"]
    let errors3 := match r.except_allowlisted with
      | none => errors2
      | some (.boolVal _) => errors2
      | some _ => errors2 ++ [path ++ ".except_allowlisted must be a boolean"]
    let mode := match r.mode with
      | some (.str s) => if s ∈ APPROVAL_MODES then strToApprovalMode s else .deny
      | _ => .deny
    let elw : Bool := match r.except_allowlisted with
      | some (.boolVal b) => b
      | _ => true
    ({ mode := mode, except_allowlisted := elw }, errors3)

/-- An approvals entry whose except_allowlisted key is absent. -/
def rawEntryNoExcept (mode : Option RawValue) (extraKeys : List String) : RawApprovalConfig :=
  { mode := mode, except_allowlisted := none, extraKeys := extraKeys }

/-- C9: when an approvals entry omits except_allowlisted, the normalized
config sets the flag to true (the permissive value), never false; and an
entry that is otherwise valid (a valid mode string, no unsupported keys) is
accepted without any error being recorded, for each of the four mode
strings. About parseApprovalConfig of src/policy/policy-validator.ts. -/
theorem exceptAllowlisted_defaults_true (mode : Option RawValue)
    (extraKeys : List String) (path : String) (errors : List String) :
    (parseApprovalConfig (some (rawEntryNoExcept mode extraKeys)) path
      errors).1.except_allowlisted = true ∧
    (parseApprovalConfig (some (rawEntryNoExcept (some (.str "auto")) [])) path
      errors).2 = errors ∧
    (parseApprovalConfig (some (rawEntryNoExcept (some (.str "prompt")) [])) path
      errors).2 = errors ∧
    (parseApprovalConfig (some (rawEntryNoExcept (some (.str "2-step")) [])) path
      errors).2 = errors ∧
    (parseApprovalConfig (some (rawEntryNoExcept (some (.str "deny")) [])) path
      errors).2 = errors := by
  refine ⟨rfl, ?_, ?_, ?_, ?_⟩ <;>
    simp [parseApprovalConfig, rawEntryNoExcept, APPROVAL_MODES]

/-! ### Merge idempotence (C2) -/

/-- A string list in the canonical order merge produces: strictly sorted
(sorted with no duplicates). -/
def CanonicalStrs (l : List String) : Prop := l.Pairwise jsStrLt

/-- A port list in canonical (strictly ascending) order. -/
def CanonicalPorts (l : List Nat) : Prop := l.Pairwise (· < ·)

/-- A command list in canonical order: sorted by compareCommandRules with
pairwise distinct commandKeys. -/
def CanonicalCmds (l : List CommandRule) : Prop :=
  l.Pairwise fun a b => cmdLe a b ∧ commandKey a ≠ commandKey b

/-- An approval-category list in canonical order: sorted by sortByCategory
with no duplicates. -/
def CanonicalCats (l : List ApprovalCategory) : Prop :=
  l.Pairwise fun a b => catLe a b ∧ a ≠ b

/-- A policy whose list fields are all in canonical sort order, duplicate
free, and whose allow section does not overlap its deny section - exactly
the shape mergePolicy itself outputs. -/
def CanonicalPolicy (p : Policy) : Prop :=
  CanonicalCmds p.allow.commands ∧
  CanonicalStrs p.allow.paths.read ∧
  CanonicalStrs p.allow.paths.write ∧
  CanonicalStrs p.allow.network.domains ∧
  CanonicalPorts p.allow.network.ports ∧
  CanonicalCmds p.deny.commands ∧
  CanonicalStrs p.deny.paths ∧
  CanonicalStrs p.deny.network.domains ∧
  CanonicalCats p.defaults.require_approval_for ∧
  (∀ r ∈ p.allow.commands, commandKey r ∉ p.deny.commands.map commandKey) ∧
  (∀ s ∈ p.allow.paths.read, s ∉ p.deny.paths) ∧
  (∀ s ∈ p.allow.paths.write, s ∉ p.deny.paths) ∧
  (∀ d ∈ p.allow.network.domains, d ∉ p.deny.network.domains)

/-- The invariants validatePolicy guarantees about a policy it accepts
(beyond what the Policy type already encodes): non-empty command names and
ports in [1, 65535]. Validation does not sort, deduplicate, or reconcile
allow against deny. -/
def IsValidatedShape (p : Policy) : Prop :=
  (∀ r ∈ p.allow.commands, r.cmd ≠ "") ∧
  (∀ r ∈ p.deny.commands, r.cmd ≠ "") ∧
  (∀ n ∈ p.allow.network.ports, 1 ≤ n ∧ n ≤ 65535)

theorem mergeStringArray_self {l : List String} (h : CanonicalStrs l) :
    mergeStringArray l l = l := by
  unfold mergeStringArray
  rw [dedupByKey_append_self id (h.imp fun hab => jsStrLt_ne hab)]
  exact List.Sorted.insertionSort_eq (h.imp fun hab => Or.inl hab)

theorem mergeNumberArray_self {l : List Nat} (h : CanonicalPorts l) :
    mergeNumberArray l l = l := by
  unfold mergeNumberArray
  rw [dedupByKey_append_self id (h.imp fun hab => ne_of_lt hab)]
  exact List.Sorted.insertionSort_eq (h.imp fun hab => le_of_lt hab)

theorem mergeCommandRules_self {l : List CommandRule} (h : CanonicalCmds l) :
    mergeCommandRules l l = l := by
  unfold mergeCommandRules
  rw [dedupByKey_append_self commandKey (h.imp fun hab => hab.2)]
  exact List.Sorted.insertionSort_eq (h.imp fun hab => hab.1)

theorem mergeDefaults_self {d : PolicyDefaults} (h : CanonicalCats d.require_approval_for) :
    mergeDefaults d d = d := by
  obtain ⟨act, reqs⟩ := d
  simp only [mergeDefaults, PolicyDefaults.mk.injEq]
  constructor
  · cases act <;> simp
  · rw [dedupByKey_append_self id (h.imp fun hab => hab.2)]
    exact List.Sorted.insertionSort_eq (h.imp fun hab => hab.1)

theorem mergeApprovalConfig_self (c : ApprovalConfig) : mergeApprovalConfig c c = c := by
  obtain ⟨m, e⟩ := c
  simp [mergeApprovalConfig]

theorem mergeApprovals_self (a : Approvals) : mergeApprovals a a = a := by
  obtain ⟨c1, c2, c3, c4, c5⟩ := a
  simp [mergeApprovals, mergeApprovalConfig_self]

theorem removeDeniedAllows_self {allow : AllowRules} {deny : DenyRules}
    (h1 : CanonicalCmds allow.commands) (h2 : CanonicalStrs allow.paths.read)
    (h3 : CanonicalStrs allow.paths.write) (h4 : CanonicalStrs allow.network.domains)
    (h5 : CanonicalPorts allow.network.ports)
    (hnc : ∀ r ∈ allow.commands, commandKey r ∉ deny.commands.map commandKey)
    (hnr : ∀ s ∈ allow.paths.read, s ∉ deny.paths)
    (hnw : ∀ s ∈ allow.paths.write, s ∉ deny.paths)
    (hnd : ∀ d ∈ allow.network.domains, d ∉ deny.network.domains) :
    removeDeniedAllows allow deny = allow := by
  obtain ⟨cmds, ⟨pr, pw⟩, ⟨doms, ports⟩⟩ := allow
  simp only [removeDeniedAllows, AllowRules.mk.injEq, PathRules.mk.injEq,
    NetworkRules.mk.injEq]
  refine ⟨?_, ⟨?_, ?_⟩, ?_, ?_⟩
  · rw [List.filter_eq_self.mpr fun r hr => decide_eq_true (hnc r hr)]
    exact List.Sorted.insertionSort_eq (h1.imp fun hab => hab.1)
  · rw [List.filter_eq_self.mpr fun s hs => decide_eq_true (hnr s hs)]
    exact List.Sorted.insertionSort_eq (h2.imp fun hab => Or.inl hab)
  · rw [List.filter_eq_self.mpr fun s hs => decide_eq_true (hnw s hs)]
    exact List.Sorted.insertionSort_eq (h3.imp fun hab => Or.inl hab)
  · rw [List.filter_eq_self.mpr fun d hd => decide_eq_true (hnd d hd)]
    exact List.Sorted.insertionSort_eq (h4.imp fun hab => Or.inl hab)
  · exact List.Sorted.insertionSort_eq (h5.imp fun hab => le_of_lt hab)

/-- A policy validation accepts (allow/deny overlap on the path src) on
which merge with itself is not the identity, not even up to ordering. -/
def overlapPolicy : Policy where
  metadata := none
  defaults := { action := .deny, require_approval_for := [] }
  allow :=
    { commands := [],
      paths := { read := ["src"], write := [] },
      network := { domains := [], ports := [] } }
  deny := { commands := [], paths := ["src"], network := { domains := [] } }
  approvals :=
    { shell_exec := { mode := .deny, except_allowlisted := false },
      new_domain := { mode := .deny, except_allowlisted := false },
      credential_paths := { mode := .deny, except_allowlisted := false },
      file_write := { mode := .deny, except_allowlisted := false },
      elevated_privilege := { mode := .deny, except_allowlisted := false } }

/-- C2 fails as stated: overlapPolicy passes validation (it has the
validated shape), yet merging it with itself drops the allow path src that
also appears in deny.paths, so merge(P, P) differs from P as a set, not
merely in ordering. -/
theorem mergeIdempotence_counterexample :
    IsValidatedShape overlapPolicy ∧
    "src" ∈ overlapPolicy.allow.paths.read ∧
    "src" ∉ (mergePolicy overlapPolicy overlapPolicy).allow.paths.read ∧
    mergePolicy overlapPolicy overlapPolicy ≠ overlapPolicy := by
  refine ⟨⟨?_, ?_, ?_⟩, ?_, ?_, ?_⟩ <;> decide

/-- C2 (amended): merging a validated policy with itself returns the policy
unchanged provided the policy is canonical - its list fields sorted in
canonical order and duplicate free and its allow section not overlapping
its deny section (every output of mergePolicy is of this shape). About
mergePolicy of src/policy/policy-merge.ts. -/
theorem mergeIdempotent_canonical (p : Policy) (hv : IsValidatedShape p)
    (hc : CanonicalPolicy p) : mergePolicy p p = p := by
  obtain ⟨hcA, hcR, hcW, hcD, hcP, hdC, hdP, hdD, hcat, hnc, hnr, hnw, hnd⟩ := hc
  obtain ⟨meta, defaults, allow, deny, approvals⟩ := p
  simp only at hcA hcR hcW hcD hcP hdC hdP hdD hcat hnc hnr hnw hnd
  simp only [mergePolicy, Policy.mk.injEq]
  refine ⟨?_, ?_, ?_, ?_, ?_⟩
  · cases meta <;> rfl
  · exact mergeDefaults_self hcat
  · have hallow : mergeAllow allow allow = allow := by
      obtain ⟨cmds, ⟨pr, pw⟩, ⟨doms, ports⟩⟩ := allow
      simp only at hcA hcR hcW hcD hcP hnc hnr hnw hnd
      simp only [mergeAllow, mergePaths, mergeNetwork, AllowRules.mk.injEq,
        PathRules.mk.injEq, NetworkRules.mk.injEq]
      exact ⟨mergeCommandRules_self hcA,
        ⟨mergeStringArray_self hcR, mergeStringArray_self hcW⟩,
        mergeStringArray_self hcD, mergeNumberArray_self hcP⟩
    have hdeny : mergeDeny deny deny = deny := by
      obtain ⟨cmds, paths, ⟨doms⟩⟩ := deny
      simp only at hdC hdP hdD
      simp only [mergeDeny, DenyRules.mk.injEq, DenyNetworkRules.mk.injEq]
      exact ⟨mergeCommandRules_self hdC, mergeStringArray_self hdP,
        mergeStringArray_self hdD⟩
    rw [hallow, hdeny]
    exact removeDeniedAllows_self hcA hcR hcW hcD hcP hnc hnr hnw hnd
  · obtain ⟨cmds, paths, ⟨doms⟩⟩ := deny
    simp only at hdC hdP hdD
    simp only [mergeDeny, DenyRules.mk.injEq, DenyNetworkRules.mk.injEq]
    exact ⟨mergeCommandRules_self hdC, mergeStringArray_self hdP,
      mergeStringArray_self hdD⟩
  · exact mergeApprovals_self approvals

/-- A concrete canonical, validated policy for instantiating merge
idempotence. -/
def canonicalSamplePolicy : Policy where
  metadata := some { name := some "sample", description := none, created := none, author := none }
  defaults := { action := .deny, require_approval_for := [.shell_exec, .new_domain] }
  allow :=
    { commands :=
        [{ cmd := "git", args := some ["status"], description := none },
         { cmd := "ls", args := none, description := none }],
      paths := { read := ["a", "b"], write := ["w"] },
      network := { domains := ["example.com"], ports := [80, 443] } }
  deny :=
    { commands := [{ cmd := "curl", args := none, description := none }],
      paths := ["secret"],
      network := { domains := ["evil.test"] } }
  approvals :=
    { shell_exec := { mode := .twoStep, except_allowlisted := true },
      new_domain := { mode := .prompt, except_allowlisted := false },
      credential_paths := { mode := .deny, except_allowlisted := false },
      file_write := { mode := .prompt, except_allowlisted := true },
      elevated_privilege := { mode := .twoStep, except_allowlisted := false } }

/-- Concrete instantiation of the amended idempotence: merging the sample
canonical policy with itself returns it byte for byte. -/
theorem mergeIdempotent_canonical_witness :
    mergePolicy canonicalSamplePolicy canonicalSamplePolicy = canonicalSamplePolicy :=
  mergeIdempotent_canonical canonicalSamplePolicy
    (by unfold IsValidatedShape; decide)
    (by unfold CanonicalPolicy CanonicalCmds CanonicalStrs CanonicalPorts CanonicalCats; decide)

/-! ## Evidence extraction (src/scanner/evidence.ts) -/

/-- CONTEXT_LINES of src/scanner/evidence.ts. -/
def CONTEXT_LINES : Nat := 3

/-- The split source.split(/\r?\n/) performed by extractEvidence: a line
break is a lone LF or a CRLF pair; a CR not followed by LF stays in its
line. An empty source yields one empty line, as in JavaScript. -/
def splitLines : Chars → List Chars
  | [] => [[]]
  | '\r' :: '\n' :: rest => [] :: splitLines rest
  | '\n' :: rest => [] :: splitLines rest
  | c :: rest =>
    match splitLines rest with
    | [] => [[c]]
    | l :: ls => (c :: l) :: ls

/-- The loop of indexToLine of src/scanner/evidence.ts: subtract
line length + 1 per line (the code assumes every separator is one
character long) and answer the first line whose remaining offset fits;
past the last line the source answers the line count (1 when empty). -/
def indexToLineAux (total : Nat) : List Chars → Nat → Nat → Nat
  | [], _, _ => if total = 0 then 1 else total
  | line :: rest, remaining, i =>
    if remaining ≤ line.length then i + 1
    else indexToLineAux total rest (remaining - (line.length + 1)) (i + 1)

/-- indexToLine of src/scanner/evidence.ts; match offsets are natural
numbers, so the source guard matchIndex <= 0 is matchIndex = 0. -/
def indexToLine (lines : List Chars) (matchIndex : Nat) : Nat :=
  if matchIndex = 0 then 1 else indexToLineAux lines.length lines matchIndex 0

/-- extractEvidence of src/scanner/evidence.ts: a plus or minus
CONTEXT_LINES window around the computed match line, its lines joined with
LF. Math.max(1, matchLine - 3) is max 1 (matchLine - 3) with truncated Nat
subtraction, which agrees because the result is clamped to at least 1
either way; lines.slice(startLine - 1, endLine) is drop then take. -/
def extractEvidence (filePath source : Chars) (matchIndex : Nat)
    (matchText : Chars) : Evidence :=
  let lines := splitLines source
  let matchLine := indexToLine lines matchIndex
  let startLine := max 1 (matchLine - CONTEXT_LINES)
  let endLine := min lines.length (matchLine + CONTEXT_LINES)
  let snippet := List.intercalate ['\n'] ((lines.drop (startLine - 1)).take (endLine - (startLine - 1)))
  { path := filePath, start_line := startLine, end_line := endLine,
    snippet := snippet, matchText := matchText }

/-- Eight one-character lines separated by CRLF. -/
def crlfContent : Chars := "a\r\nb\r\nc\r\nd\r\ne\r\nf\r\ng\r\nh".data

/-- C8 fails on the code for CRLF content: the character at match offset 12
of crlfContent is the letter e, which sits on 1-based line 5 (four LF line
breaks precede offset 12), so the claimed window is
startLine = max(1, 5 - 3) = 2; but splitLines consumes two characters per
CRLF separator while indexToLine subtracts only line length + 1, so the
code computes match line 7 and startLine 4. The claim (and the spec line
counting it quotes) is the evident intent; the code drifts by one line per
preceding CRLF separator. -/
theorem evidence_crlf_divergence :
    (extractEvidence "f.txt".data crlfContent 12 ['e']).start_line = 4 ∧
    crlfContent[12]? = some 'e' ∧
    (crlfContent.take 12).count '\n' + 1 = 5 ∧
    (extractEvidence "f.txt".data crlfContent 12 ['e']).start_line ≠ max 1 (5 - 3) := by
  refine ⟨?_, ?_, ?_, ?_⟩ <;> decide

/-! ## Ignore rules (src/ingest/file-discovery.ts) -/

/-- path.posix.basename: the last path component, trailing slashes
stripped. -/
def posixBasename (s : String) : String :=
  let q := s.data.reverse.dropWhile (· = '/')
  ⟨(q.takeWhile (· ≠ '/')).reverse⟩

/-- IgnorePattern of src/ingest/file-discovery.ts. The compiled RegExp the
source stores is a black box of the regular-expression library, embedded as
an arbitrary Boolean test on the candidate string (none when
buildPatternRegex returned null). -/
structure IgnorePattern where
  raw : String
  negated : Bool
  anchored : Bool
  directoryOnly : Bool
  hasSlash : Bool
  pattern : String
  regex : Option (String → Bool)

/-- matchesPattern of src/ingest/file-discovery.ts. The embedding works on
root-relative posix paths, so the path.sep to path.posix.sep rewrite of the
source is the identity. -/
def matchesPattern (relativePath : String) (p : IgnorePattern) : Bool :=
  match p.regex with
  | none => false
  | some rx =>
    if !p.hasSlash && !p.anchored then
      let base := posixBasename relativePath
      if p.directoryOnly then base = p.pattern else rx base
    else rx relativePath

/-- One iteration of the shouldIgnore loop of
src/ingest/file-discovery.ts. -/
def ignoreStep (relativePath : String) (isDirectory : Bool)
    (ignored : Bool) (p : IgnorePattern) : Bool :=
  if p.directoryOnly && !isDirectory then ignored
  else if !(matchesPattern relativePath p) then ignored
  else !p.negated

/-- shouldIgnore of src/ingest/file-discovery.ts. -/
def shouldIgnore (relativePath : String) (patterns : List IgnorePattern)
    (isDirectory : Bool) : Bool :=
  patterns.foldl (ignoreStep relativePath isDirectory) false

/-- The rules of a list that match a path, in file order: directory-only
rules apply only to directories, everything else must pass
matchesPattern. -/
def matchingIgnoreRules (relativePath : String) (patterns : List IgnorePattern)
    (isDirectory : Bool) : List IgnorePattern :=
  patterns.filter fun p => !(p.directoryOnly && !isDirectory) && matchesPattern relativePath p

theorem foldl_ignoreStep (relativePath : String) (isDirectory : Bool) :
    ∀ (patterns : List IgnorePattern) (init : Bool),
      patterns.foldl (ignoreStep relativePath isDirectory) init
        = ((matchingIgnoreRules relativePath patterns isDirectory).getLast?).elim init
            (fun p => !p.negated) := by
  intro patterns
  induction patterns with
  | nil => intro init; rfl
  | cons p rest ih =>
    intro init
    rw [List.foldl_cons, ih]
    by_cases hskip : (p.directoryOnly && !isDirectory) = true
    · have hcond : (!(p.directoryOnly && !isDirectory)
          && matchesPattern relativePath p) = false := by
        rw [hskip]
        rfl
      have hm : matchingIgnoreRules relativePath (p :: rest) isDirectory
          = matchingIgnoreRules relativePath rest isDirectory := by
        unfold matchingIgnoreRules
        rw [List.filter_cons, hcond]
        simp
      have hstep : ignoreStep relativePath isDirectory init p = init := by
        unfold ignoreStep
        rw [if_pos hskip]
      rw [hm, hstep]
    · have hskipf : (p.directoryOnly && !isDirectory) = false := by
        revert hskip
        cases p.directoryOnly && !isDirectory <;> simp
      by_cases hmt : matchesPattern relativePath p = true
      · have hcond : (!(p.directoryOnly && !isDirectory)
            && matchesPattern relativePath p) = true := by
          rw [hskipf, hmt]
          rfl
        have hm : matchingIgnoreRules relativePath (p :: rest) isDirectory
            = p :: matchingIgnoreRules relativePath rest isDirectory := by
          unfold matchingIgnoreRules
          rw [List.filter_cons, hcond]
          simp
        have hstep : ignoreStep relativePath isDirectory init p = !p.negated := by
          unfold ignoreStep
          rw [if_neg hskip, if_neg (by rw [hmt]; simp)]
        rw [hm, hstep]
        cases hrest : matchingIgnoreRules relativePath rest isDirectory with
        | nil => rfl
        | cons q qs =>
          obtain ⟨x, hx⟩ := Option.isSome_iff_exists.mp
            (List.getLast?_isSome.mpr (List.cons_ne_nil q qs))
          rw [List.getLast?_cons_cons, hx]
          rfl
      · have hmf : matchesPattern relativePath p = false := by
          revert hmt
          cases matchesPattern relativePath p <;> simp
        have hcond : (!(p.directoryOnly && !isDirectory)
            && matchesPattern relativePath p) = false := by
          rw [hmf]
          simp
        have hm : matchingIgnoreRules relativePath (p :: rest) isDirectory
            = matchingIgnoreRules relativePath rest isDirectory := by
          unfold matchingIgnoreRules
          rw [List.filter_cons, hcond]
          simp
        have hstep : ignoreStep relativePath isDirectory init p = init := by
          unfold ignoreStep
          rw [if_neg hskip, if_pos (by rw [hmf]; rfl)]
        rw [hm, hstep]

/-- C7: the discovery engine ignores a path exactly when the last rule in
the list that matches it (directory-only rules matching only directories)
is non-negated: shouldIgnore equals the negation flag of the last matching
rule, and is false when no rule matches. In particular a negated matching
rule that occurs after a matching non-negated rule re-includes the path.
About shouldIgnore and matchesPattern of src/ingest/file-discovery.ts. -/
theorem ignore_lastMatchWins (relativePath : String) (patterns : List IgnorePattern)
    (isDirectory : Bool) :
    shouldIgnore relativePath patterns isDirectory
      = ((matchingIgnoreRules relativePath patterns isDirectory).getLast?).elim false
          (fun p => !p.negated) :=
  foldl_ignoreStep relativePath isDirectory patterns false

/-! ## Rule engine (src/scanner/rule-engine.ts, src/scanner/finding-factory.ts)

The regular-expression engine (RegExp with flags gmi) and the YAML parser
(yaml.load) are external libraries; both are embedded as function
parameters - engine returns the (offset, matched text) pairs of the
successive non-overlapping matches of a pattern source on a content, and
yamlLoad returns the parsed document or none when parsing throws. Every
piece of repository logic around them is embedded directly. For concrete
evaluation, literalMatches below implements engine for the
metacharacter-free patterns it is instantiated with. -/

/-- RulePattern of src/scanner/types.ts. -/
structure RulePattern where
  regex : Chars
  description : Chars
deriving DecidableEq, Repr

/-- RuleScope of src/scanner/types.ts. -/
structure RuleScope where
  file_types : List Chars
deriving DecidableEq, Repr

/-- Rule of src/scanner/types.ts. -/
structure Rule where
  id : Chars
  title : Chars
  description : Chars
  severity : Severity
  confidence : Confidence
  category : Chars
  scope : RuleScope
  patterns : List RulePattern
  remediation : Chars
  tags : Option (List Chars)
deriving DecidableEq, Repr

/-- RuleMeta of src/scanner/types.ts; the file_type_extensions record is a
list of (label, extension list) entries in insertion order. -/
structure RuleMeta where
  rule_format_version : Chars
  file_type_extensions : List (Chars × List Chars)
deriving DecidableEq, Repr

/-- FileEntry of src/ingest/types.ts, with the content field standing for
the bytes fs.readFile(absolutePath) deterministically returns; category is
the display classification string. -/
structure FileEntry where
  absolutePath : Chars
  relativePath : Chars
  sizeBytes : Nat
  category : Chars
  content : Chars
deriving DecidableEq, Repr

/-- Character-wise toLowerCase. -/
def lowerChars (s : Chars) : Chars := s.map Char.toLower

/-- path.posix.basename on a character sequence: the last component,
trailing separators stripped. -/
def basenameChars (p : Chars) : Chars :=
  let q := p.reverse.dropWhile (· = '/')
  (q.takeWhile (· ≠ '/')).reverse

/-- path.posix.extname on a character sequence: from the last dot of the
basename when it is not the leading character, else empty. -/
def extnameChars (p : Chars) : Chars :=
  let b := basenameChars p
  match b.reverse.findIdx? (· = '.') with
  | none => []
  | some j => if b.length - 1 - j = 0 then [] else b.drop (b.length - 1 - j)

/-- The test of the yaml-workflow path matcher
(a caret then .github/workflows/ then .+ then .ya?ml at the end, flag i):
works on an already lowercased path; the .+ is one or more characters none
of which is a newline. -/
def workflowPathTest (s : Chars) : Bool :=
  let pre := ".github/workflows/".data
  pre.isPrefixOf s &&
    ((".yml".data.isSuffixOf s && decide (pre.length + 1 + 4 ≤ s.length) &&
        ((s.drop pre.length).take (s.length - 4 - pre.length)).all (· ≠ '\n')) ||
     (".yaml".data.isSuffixOf s && decide (pre.length + 1 + 5 ≤ s.length) &&
        ((s.drop pre.length).take (s.length - 5 - pre.length)).all (· ≠ '\n')))

/-- The dockerfile path matchers (exactly dockerfile, or a .dockerfile
suffix; lowercased input). -/
def dockerfilePathTest (s : Chars) : Bool :=
  s = "dockerfile".data || ".dockerfile".data.isSuffixOf s

/-- The file extensions the mcp-config matchers accept. -/
def mcpExts : List Chars := ["json".data, "jsonc".data, "yml".data, "yaml".data]

/-- The finite language of the first mcp-config matcher: mcp, an optional
separator (dot, dash or underscore), an optional word config or manifest,
then a dot and one of the extensions. -/
def mcpNamePatterns : List Chars :=
  let seps : List Chars := [[], ['.'], ['-'], ['_']]
  let words : List Chars := [[], "config".data, "manifest".data]
  seps.flatMap fun sep => words.flatMap fun w =>
    mcpExts.map fun e => "mcp".data ++ sep ++ w ++ '.' :: e

/-- The fourth mcp-config matcher: an mcp/ directory component (at the
start or after a separator), then .+ then a dot and an extension at the
end. -/
def mcpDirTest (s : Chars) : Bool :=
  (List.range s.length).any fun p =>
    "mcp/".data.isPrefixOf (s.drop p) &&
    (decide (p = 0) || decide ((s.drop (p - 1)).take 1 = ['/'])) &&
    mcpExts.any fun e =>
      ('.' :: e).isSuffixOf s &&
      decide (p + 4 + 1 + (e.length + 1) ≤ s.length) &&
      ((s.drop (p + 4)).take (s.length - (e.length + 1) - (p + 4))).all (· ≠ '\n')

/-- The mcp-config path matchers of FILE_TYPE_PATH_MATCHERS (lowercased
input). -/
def mcpConfigPathTest (s : Chars) : Bool :=
  decide (s ∈ mcpNamePatterns) ||
  (mcpExts.any fun e => s = ".mcp.".data ++ e) ||
  s = "opencode.json".data || s = "opencode.jsonc".data ||
  mcpDirTest s

/-- resolveFileTypes of src/scanner/rule-engine.ts: extension labels from
RuleMeta plus the fixed path-shape matchers, each tested on the lowercased
relative path and on its basename. The Set of labels is embedded as the
list of labels added, in insertion order; only membership is consumed. The
path.sep normalization is the identity on posix paths. -/
def resolveFileTypes (file : FileEntry) (meta : RuleMeta) : List Chars :=
  let lower := lowerChars file.relativePath
  let ext := extnameChars lower
  let base := basenameChars lower
  ((meta.file_type_extensions.filter fun kv =>
      kv.2.any fun v => lowerChars v = ext).map Prod.fst)
  ++ (if workflowPathTest lower || workflowPathTest base then ["yaml-workflow".data] else [])
  ++ (if dockerfilePathTest lower || dockerfilePathTest base then ["dockerfile".data] else [])
  ++ (if mcpConfigPathTest lower || mcpConfigPathTest base then ["mcp-config".data] else [])

/-- ruleAppliesToFile of src/scanner/rule-engine.ts: the declared label set
must intersect the resolved label set. -/
def ruleAppliesToFile (rule : Rule) (file : FileEntry) (meta : RuleMeta) : Bool :=
  rule.scope.file_types.any fun t => t ∈ resolveFileTypes file meta

/-- String.prototype.indexOf: the offset of the first occurrence of needle
in hay (an empty needle occurs at offset 0). -/
def strIndexOf (hay needle : Chars) : Option Nat :=
  if needle.isPrefixOf hay then some 0
  else
    match hay with
    | [] => none
    | _ :: t => (strIndexOf t needle).map (· + 1)

/-- A parsed YAML document as the structural checks inspect it (the
unknown values js-yaml returns). -/
inductive JsVal where
  | str (s : Chars)
  | num (n : Int)
  | boolVal (b : Bool)
  | nullVal
  | arr (items : List JsVal)
  | obj (fields : List (Chars × JsVal))

/-- JavaScript property access on a parsed mapping (YAML mapping keys are
unique, so first match suffices). -/
def objGet (fields : List (Chars × JsVal)) (k : Chars) : Option JsVal :=
  (fields.find? fun kv => kv.1 = k).map Prod.snd

/-- getJobs of src/scanner/rule-engine.ts: the jobs mapping entries, in
document order ([] when jobs is not a mapping). -/
def getJobs (doc : List (Chars × JsVal)) : List (Chars × JsVal) :=
  match objGet doc "jobs".data with
  | some (.obj jf) => jf
  | _ => []

/-- findBroadPermissions of src/scanner/rule-engine.ts. -/
def findBroadPermissions (doc : List (Chars × JsVal)) : List Chars :=
  (match objGet doc "permissions".data with
   | some (.str s) => if s = "write-all".data then ["permissions: write-all".data] else []
   | _ => []) ++
  (getJobs doc).flatMap fun kv =>
    match kv.2 with
    | .obj jf =>
      match objGet jf "permissions".data with
      | some (.str s) => if s = "write-all".data then ["permissions: write-all".data] else []
      | some (.obj pf) =>
        match objGet pf "contents".data, objGet pf "pull-requests".data with
        | some (.str c), some (.str pr) =>
          if c = "write".data ∧ pr = "write".data then
            ["contents: write".data, "pull-requests: write".data]
          else []
        | _, _ => []
      | _ => []
    | _ => []

/-- The moving-branch test @(main|master|develop|latest)$ with flag i. -/
def movingRefTest (u : Chars) : Bool :=
  let l := lowerChars u
  "@main".data.isSuffixOf l || "@master".data.isSuffixOf l ||
    "@develop".data.isSuffixOf l || "@latest".data.isSuffixOf l

/-- The floating major tag test (an at sign, v, then digits to the end,
flag i). -/
def majorTagTest (u : Chars) : Bool :=
  let r := (lowerChars u).reverse
  let ds := r.takeWhile (·.isDigit)
  decide (ds ≠ []) &&
    (match r.drop ds.length with
     | 'v' :: '@' :: _ => true
     | _ => false)

/-- The matched text an unpinned uses reference produces. -/
def usesMatch (u : Chars) : List Chars :=
  if movingRefTest u then ["uses: ".data ++ u]
  else if majorTagTest u then ["uses: ".data ++ u]
  else []

/-- findUnpinnedUses of src/scanner/rule-engine.ts. -/
def findUnpinnedUses (doc : List (Chars × JsVal)) : List Chars :=
  (getJobs doc).flatMap fun kv =>
    match kv.2 with
    | .obj jf =>
      (match objGet jf "uses".data with
       | some (.str u) => usesMatch u
       | _ => []) ++
      (match objGet jf "steps".data with
       | some (.arr steps) =>
         steps.flatMap fun st =>
           match st with
           | .obj sf =>
             match objGet sf "uses".data with
             | some (.str u) => usesMatch u
             | _ => []
           | _ => []
       | _ => [])
    | _ => []

/-- findDangerousTriggers of src/scanner/rule-engine.ts. -/
def findDangerousTriggers (doc : List (Chars × JsVal)) : List Chars :=
  match objGet doc "on".data with
  | some (.str s) =>
    if s = "pull_request_target".data ∨ s = "issue_comment".data
    then ["on: ".data ++ s] else []
  | some (.arr items) =>
    items.flatMap fun it =>
      match it with
      | .str s =>
        if s = "pull_request_target".data ∨ s = "issue_comment".data
        then ["on: ".data ++ s] else []
      | _ => []
  | some (.obj fields) =>
    (if fields.any (fun kv => kv.1 = "pull_request_target".data)
     then ["pull_request_target".data] else []) ++
    (if fields.any (fun kv => kv.1 = "issue_comment".data)
     then ["issue_comment".data] else [])
  | _ => []

/-- Whether hay contains needle (String.prototype.includes). -/
def containsSub (hay needle : Chars) : Bool := (strIndexOf hay needle).isSome

/-- The fixed attacker-controllable expressions of
findExpressionInjectionRuns. -/
def riskyExpressions : List Chars :=
  ["$\x7b\x7b github.event.issue.title \x7d\x7d".data,
   "$\x7b\x7b github.event.issue.body \x7d\x7d".data,
   "$\x7b\x7b github.event.pull_request.title \x7d\x7d".data,
   "$\x7b\x7b github.event.pull_request.body \x7d\x7d".data,
   "$\x7b\x7b github.event.comment.body \x7d\x7d".data,
   "$\x7b\x7b github.head_ref \x7d\x7d".data]

/-- findExpressionInjectionRuns of src/scanner/rule-engine.ts. -/
def findExpressionInjectionRuns (doc : List (Chars × JsVal)) : List Chars :=
  (getJobs doc).flatMap fun kv =>
    match kv.2 with
    | .obj jf =>
      (match objGet jf "uses".data, objGet jf "with".data with
       | some (.str _), some (.obj wf) =>
         wf.flatMap fun kv2 =>
           match kv2.2 with
           | .str v => riskyExpressions.filter fun e => containsSub v e
           | _ => []
       | _, _ => []) ++
      (match objGet jf "steps".data with
       | some (.arr steps) =>
         steps.flatMap fun st =>
           match st with
           | .obj sf =>
             match objGet sf "run".data with
             | some (.str runBody) => riskyExpressions.filter fun e => containsSub runBody e
             | _ => []
           | _ => []
       | _ => [])
    | _ => []

/-- findSelfHostedRunners of src/scanner/rule-engine.ts. -/
def findSelfHostedRunners (doc : List (Chars × JsVal)) : List Chars :=
  (getJobs doc).flatMap fun kv =>
    match kv.2 with
    | .obj jf =>
      match objGet jf "runs-on".data with
      | some (.str r) =>
        if lowerChars r = "self-hosted".data then ["self-hosted".data] else []
      | some (.arr items) =>
        if items.any (fun it =>
            match it with
            | .str r => lowerChars r = "self-hosted".data
            | _ => false)
        then ["self-hosted".data] else []
      | _ => []
    | _ => []

/-- findGhaMatches of src/scanner/rule-engine.ts (the switch on the rule
identity). -/
def findGhaMatches (ruleId : Chars) (doc : List (Chars × JsVal)) : List Chars :=
  if ruleId = "OG-GHA-001".data then findBroadPermissions doc
  else if ruleId = "OG-GHA-002".data then findUnpinnedUses doc
  else if ruleId = "OG-GHA-003".data then findDangerousTriggers doc
  else if ruleId = "OG-GHA-004".data then findExpressionInjectionRuns doc
  else if ruleId = "OG-GHA-005".data then findSelfHostedRunners doc
  else []

/-- isGitHubWorkflowFile of src/scanner/rule-engine.ts. -/
def isGitHubWorkflowFile (relativePath : Chars) : Bool :=
  workflowPathTest (lowerChars relativePath)

/-- isGhaRule of src/scanner/rule-engine.ts. -/
def isGhaRule (rule : Rule) : Bool := "OG-GHA-".data.isPrefixOf rule.id

/-- createFindingId of src/scanner/finding-factory.ts. The source feeds
ruleId:path:startLine:matchedText to SHA-256 and keeps twelve hex digits;
the digest is modelled by its own input - a collision-free stand-in that
preserves exactly what the development relies on: the id is a pure function
of (rule id, path, start line, matched text), identical inputs give
identical ids. -/
def createFindingId (ruleId relativePath : Chars) (startLine : Nat)
    (matchedText : Chars) : Chars :=
  ruleId ++ ":".data ++ relativePath ++ ":".data
    ++ (toString startLine).data ++ ":".data ++ matchedText

/-- createFinding of src/scanner/finding-factory.ts. -/
def createFinding (rule : Rule) (evidence : Evidence) : Finding :=
  { id := createFindingId rule.id evidence.path evidence.start_line evidence.matchText,
    rule_id := rule.id,
    severity := rule.severity,
    category := rule.category,
    confidence := rule.confidence,
    title := rule.title,
    description := rule.description,
    evidence := evidence,
    remediation := rule.remediation,
    tags := rule.tags }

/-- scanGhaRuleStructured of src/scanner/rule-engine.ts: none when the
document fails to parse or is not a mapping (the caller then falls back to
text patterns); otherwise one finding per structural match that literally
occurs in the raw content. -/
def scanGhaRuleStructured (yamlLoad : Chars → Option JsVal) (rule : Rule)
    (relativePath content : Chars) : Option (List Finding) :=
  match yamlLoad content with
  | none => none
  | some v =>
    match v with
    | .obj fields =>
      some ((findGhaMatches rule.id fields).filterMap fun m =>
        match strIndexOf content m with
        | none => none
        | some idx => some (createFinding rule (extractEvidence relativePath content idx m)))
    | _ => none

/-- The text-pattern loop of scanFile: every match of every pattern of the
rule becomes a finding. -/
def textScan (engine : Chars → Chars → List (Nat × Chars)) (rule : Rule)
    (relativePath content : Chars) : List Finding :=
  rule.patterns.flatMap fun pat =>
    (engine pat.regex content).map fun m =>
      createFinding rule (extractEvidence relativePath content m.1 m.2)

/-- scanFile of src/scanner/rule-engine.ts. -/
def scanFile (engine : Chars → Chars → List (Nat × Chars))
    (yamlLoad : Chars → Option JsVal) (file : FileEntry) (rules : List Rule)
    (meta : RuleMeta) : List Finding :=
  let content := file.content
  let isWorkflowFile := isGitHubWorkflowFile file.relativePath
  rules.flatMap fun rule =>
    if !(ruleAppliesToFile rule file meta) then []
    else if isWorkflowFile && isGhaRule rule then
      match scanGhaRuleStructured yamlLoad rule file.relativePath content with
      | some structuredFindings => structuredFindings
      | none => textScan engine rule file.relativePath content
    else textScan engine rule file.relativePath content

/-- One iteration of the seenIds deduplication loop of scanTarget: keep a
finding only when its id was not seen, recording ids in first-seen
order. -/
def dedupStep (st : List Finding × List Chars) (f : Finding) :
    List Finding × List Chars :=
  if f.id ∈ st.2 then st else (st.1 ++ [f], st.2 ++ [f.id])

/-- The ordering the (a, b) => a.id.localeCompare(b.id) comparator of
scanTarget induces (localeCompare modelled as the lexicographic order on
the character sequences). -/
def findingIdLe (a b : Finding) : Prop :=
  List.Lex (· < ·) a.id b.id ∨ a.id = b.id

instance : DecidableRel findingIdLe := fun a b => by
  unfold findingIdLe
  infer_instance

instance : IsTotal Finding findingIdLe where
  total a b := by
    haveI : IsTrichotomous (List Char) (List.Lex (· < ·)) := inferInstance
    rcases trichotomous (r := List.Lex (· < ·)) a.id b.id with h | h | h
    · exact Or.inl (Or.inl h)
    · exact Or.inl (Or.inr h)
    · exact Or.inr (Or.inl h)

instance : IsTrans Finding findingIdLe where
  trans a b c hab hbc := by
    haveI : IsTrans (List Char) (List.Lex (· < ·)) := inferInstance
    rcases hab with h1 | h1
    · rcases hbc with h2 | h2
      · exact Or.inl (Trans.trans (r := List.Lex (· < ·)) h1 h2)
      · exact Or.inl (h2 ▸ h1)
    · rcases hbc with h2 | h2
      · exact Or.inl (h1 ▸ h2)
      · exact Or.inr (h1.trans h2)

/-- scanTarget of src/scanner/rule-engine.ts: scan each file, keep the
first finding per id, sort by id. -/
def scanTarget (engine : Chars → Chars → List (Nat × Chars))
    (yamlLoad : Chars → Option JsVal) (files : List FileEntry)
    (rules : List Rule) (meta : RuleMeta) : List Finding :=
  let st := files.foldl
    (fun st file => (scanFile engine yamlLoad file rules meta).foldl dedupStep st)
    ([], [])
  List.insertionSort findingIdLe st.1

/-- The multiset of findings the per-file scans produce, before
deduplication, in file order. -/
def scanPool (engine : Chars → Chars → List (Nat × Chars))
    (yamlLoad : Chars → Option JsVal) (files : List FileEntry)
    (rules : List Rule) (meta : RuleMeta) : List Finding :=
  files.flatMap fun file => scanFile engine yamlLoad file rules meta

/-! ### Scan aggregation lemmas -/

theorem foldl_scanFile_eq_pool (engine : Chars → Chars → List (Nat × Chars))
    (yamlLoad : Chars → Option JsVal) (rules : List Rule) (meta : RuleMeta) :
    ∀ (files : List FileEntry) (st : List Finding × List Chars),
      files.foldl
          (fun st file => (scanFile engine yamlLoad file rules meta).foldl dedupStep st) st
        = (scanPool engine yamlLoad files rules meta).foldl dedupStep st := by
  intro files
  induction files with
  | nil => intro st; rfl
  | cons f rest ih =>
    intro st
    show _ = ((scanFile engine yamlLoad f rules meta
        ++ scanPool engine yamlLoad rest rules meta).foldl dedupStep st)
    rw [List.foldl_append, List.foldl_cons, ih]

theorem scanTarget_eq (engine : Chars → Chars → List (Nat × Chars))
    (yamlLoad : Chars → Option JsVal) (files : List FileEntry)
    (rules : List Rule) (meta : RuleMeta) :
    scanTarget engine yamlLoad files rules meta
      = List.insertionSort findingIdLe
          ((scanPool engine yamlLoad files rules meta).foldl dedupStep ([], [])).1 := by
  unfold scanTarget
  rw [foldl_scanFile_eq_pool]

theorem dedupFold_ids (l : List Finding) :
    ∀ st : List Finding × List Chars, st.2 = st.1.map (·.id) →
      (l.foldl dedupStep st).2 = (l.foldl dedupStep st).1.map (·.id) := by
  induction l with
  | nil => intro st h; exact h
  | cons f rest ih =>
    intro st h
    rw [List.foldl_cons]
    refine ih _ ?_
    unfold dedupStep
    by_cases hm : f.id ∈ st.2
    · rw [if_pos hm]
      exact h
    · rw [if_neg hm]
      show st.2 ++ [f.id] = (st.1 ++ [f]).map (·.id)
      rw [List.map_append, h]
      rfl

theorem dedupFold_pairwise (l : List Finding) :
    ∀ st : List Finding × List Chars, st.2 = st.1.map (·.id) →
      st.1.Pairwise (fun a b => a.id ≠ b.id) →
      (l.foldl dedupStep st).1.Pairwise (fun a b => a.id ≠ b.id) := by
  induction l with
  | nil => intro st _ hpw; exact hpw
  | cons f rest ih =>
    intro st hids hpw
    rw [List.foldl_cons]
    by_cases hm : f.id ∈ st.2
    · rw [show dedupStep st f = st from by unfold dedupStep; rw [if_pos hm]]
      exact ih _ hids hpw
    · rw [show dedupStep st f = (st.1 ++ [f], st.2 ++ [f.id]) from by
        unfold dedupStep; rw [if_neg hm]]
      refine ih _ ?_ ?_
      · show st.2 ++ [f.id] = (st.1 ++ [f]).map (·.id)
        rw [List.map_append, hids]
        rfl
      · show (st.1 ++ [f]).Pairwise (fun a b => a.id ≠ b.id)
        rw [List.pairwise_append]
        refine ⟨hpw, List.pairwise_singleton _ _, ?_⟩
        intro a ha b hb
        rw [List.mem_singleton] at hb
        subst hb
        intro he
        exact hm (hids ▸ (he ▸ List.mem_map_of_mem (·.id) ha))

theorem dedupFold_sub (l : List Finding) :
    ∀ (st : List Finding × List Chars) (x : Finding),
      x ∈ (l.foldl dedupStep st).1 → x ∈ st.1 ∨ x ∈ l := by
  induction l with
  | nil => intro st x hx; exact Or.inl hx
  | cons f rest ih =>
    intro st x hx
    rw [List.foldl_cons] at hx
    rcases ih _ x hx with h | h
    · unfold dedupStep at h
      by_cases hm : f.id ∈ st.2
      · rw [if_pos hm] at h
        exact Or.inl h
      · rw [if_neg hm] at h
        simp only [List.mem_append, List.mem_singleton] at h
        rcases h with h | h
        · exact Or.inl h
        · exact Or.inr (h ▸ List.mem_cons_self f rest)
    · exact Or.inr (List.mem_cons_of_mem f h)

theorem dedupFold_seen_sub (l : List Finding) :
    ∀ (st : List Finding × List Chars) (k : Chars),
      k ∈ st.2 → k ∈ (l.foldl dedupStep st).2 := by
  induction l with
  | nil => intro st k hk; exact hk
  | cons f rest ih =>
    intro st k hk
    rw [List.foldl_cons]
    refine ih _ k ?_
    unfold dedupStep
    by_cases hm : f.id ∈ st.2
    · rw [if_pos hm]
      exact hk
    · rw [if_neg hm]
      exact List.mem_append_left _ hk

theorem dedupFold_covers (l : List Finding) :
    ∀ (st : List Finding × List Chars) (x : Finding), x ∈ l →
      x.id ∈ (l.foldl dedupStep st).2 := by
  induction l with
  | nil => intro st x hx; exact absurd hx (List.not_mem_nil x)
  | cons f rest ih =>
    intro st x hx
    rw [List.foldl_cons]
    rcases List.mem_cons.mp hx with h | h
    · subst h
      refine dedupFold_seen_sub rest _ x.id ?_
      unfold dedupStep
      by_cases hm : x.id ∈ st.2
      · rw [if_pos hm]
        exact hm
      · rw [if_neg hm]
        exact List.mem_append_right _ (List.mem_singleton.mpr rfl)
    · exact ih _ x h

theorem dedupFold_mem (l : List Finding)
    (hinj : ∀ a ∈ l, ∀ b ∈ l, a.id = b.id → a = b) (x : Finding) :
    x ∈ (l.foldl dedupStep (([], []) : List Finding × List Chars)).1 ↔ x ∈ l := by
  constructor
  · intro hx
    rcases dedupFold_sub l ([], []) x hx with h | h
    · exact absurd h (List.not_mem_nil x)
    · exact h
  · intro hx
    have hcov : x.id ∈ (l.foldl dedupStep (([], []) : List Finding × List Chars)).2 :=
      dedupFold_covers l ([], []) x hx
    rw [dedupFold_ids l ([], []) rfl] at hcov
    obtain ⟨y, hy, hyid⟩ := List.mem_map.mp hcov
    have hyl : y ∈ l := by
      rcases dedupFold_sub l ([], []) y hy with h | h
      · exact absurd h (List.not_mem_nil y)
      · exact h
    have : y = x := hinj y hyl x hx hyid
    exact this ▸ hy

/-- The strict ordering on findings by id. -/
def findingIdLt (a b : Finding) : Prop := List.Lex (· < ·) a.id b.id

theorem pairwise_findingIdLt {l : List Finding} (hle : l.Pairwise findingIdLe)
    (hne : l.Pairwise fun a b => a.id ≠ b.id) : l.Pairwise findingIdLt :=
  (hle.and hne).imp fun hab => hab.1.resolve_right hab.2

theorem eq_of_perm_of_pairwise_findingIdLt {l₁ l₂ : List Finding}
    (hp : l₁.Perm l₂) (h₁ : l₁.Pairwise findingIdLt)
    (h₂ : l₂.Pairwise findingIdLt) : l₁ = l₂ := by
  haveI : IsAntisymm Finding findingIdLt := ⟨fun a b hab hba => by
    haveI : IsAsymm (List Char) (List.Lex (· < ·)) := inferInstance
    exact absurd hba (asymm (r := List.Lex (· < ·)) hab)⟩
  exact List.eq_of_perm_of_sorted hp h₁ h₂

/-- C4 (amended): scanTarget always returns findings with pairwise
distinct ids, sorted ascending by id (and - being a pure function -
identical results on repeated invocations); and it returns the same
findings list for any permutation of the files list provided any two
findings produced by the per-file scans with equal ids are equal findings
(true in particular when relative paths are pairwise distinct and the id
digest does not collide). Without that proviso only the order-invariance
fails, see the counterexample: two files sharing a relative path yield
equal-id findings with different snippets, and first-seen-wins
deduplication then makes the output depend on file order. About scanTarget
of src/scanner/rule-engine.ts. -/
theorem scan_dedup_sorted_deterministic (engine : Chars → Chars → List (Nat × Chars))
    (yamlLoad : Chars → Option JsVal) (files files' : List FileEntry)
    (rules : List Rule) (meta : RuleMeta)
    (hperm : files.Perm files') :
    (scanTarget engine yamlLoad files rules meta).Pairwise (fun a b => a.id ≠ b.id) ∧
    (scanTarget engine yamlLoad files rules meta).Sorted findingIdLe ∧
    ((∀ a ∈ scanPool engine yamlLoad files rules meta,
        ∀ b ∈ scanPool engine yamlLoad files rules meta, a.id = b.id → a = b) →
      scanTarget engine yamlLoad files rules meta
        = scanTarget engine yamlLoad files' rules meta) := by
  have hpp : (scanPool engine yamlLoad files rules meta).Perm
      (scanPool engine yamlLoad files' rules meta) :=
    hperm.flatMap_right _
  have hr_pw := dedupFold_pairwise (scanPool engine yamlLoad files rules meta)
    ([], []) rfl List.Pairwise.nil
  have hr'_pw := dedupFold_pairwise (scanPool engine yamlLoad files' rules meta)
    ([], []) rfl List.Pairwise.nil
  have hsorted : (scanTarget engine yamlLoad files rules meta).Sorted findingIdLe := by
    rw [scanTarget_eq]
    exact List.sorted_insertionSort findingIdLe _
  have hsorted' : (scanTarget engine yamlLoad files' rules meta).Sorted findingIdLe := by
    rw [scanTarget_eq]
    exact List.sorted_insertionSort findingIdLe _
  have hpw : (scanTarget engine yamlLoad files rules meta).Pairwise
      (fun a b => a.id ≠ b.id) := by
    rw [scanTarget_eq]
    exact ((List.perm_insertionSort findingIdLe _).pairwise_iff
      (fun h he => h he.symm)).mpr hr_pw
  have hpw' : (scanTarget engine yamlLoad files' rules meta).Pairwise
      (fun a b => a.id ≠ b.id) := by
    rw [scanTarget_eq]
    exact ((List.perm_insertionSort findingIdLe _).pairwise_iff
      (fun h he => h he.symm)).mpr hr'_pw
  refine ⟨hpw, hsorted, ?_⟩
  intro hinj
  have hinj' : ∀ a ∈ scanPool engine yamlLoad files' rules meta,
      ∀ b ∈ scanPool engine yamlLoad files' rules meta, a.id = b.id → a = b :=
    fun a ha b hb => hinj a (hpp.mem_iff.mpr ha) b (hpp.mem_iff.mpr hb)
  have hr_nd : ((scanPool engine yamlLoad files rules meta).foldl dedupStep
      (([], []) : List Finding × List Chars)).1.Nodup :=
    hr_pw.imp fun h => fun he => h (he ▸ rfl)
  have hr'_nd : ((scanPool engine yamlLoad files' rules meta).foldl dedupStep
      (([], []) : List Finding × List Chars)).1.Nodup :=
    hr'_pw.imp fun h => fun he => h (he ▸ rfl)
  have hrr' : ((scanPool engine yamlLoad files rules meta).foldl dedupStep
      (([], []) : List Finding × List Chars)).1.Perm
      ((scanPool engine yamlLoad files' rules meta).foldl dedupStep
      (([], []) : List Finding × List Chars)).1 := by
    refine (List.perm_ext_iff_of_nodup hr_nd hr'_nd).mpr fun x => ?_
    rw [dedupFold_mem _ hinj x, dedupFold_mem _ hinj' x]
    exact hpp.mem_iff
  have hsp : (scanTarget engine yamlLoad files rules meta).Perm
      (scanTarget engine yamlLoad files' rules meta) := by
    rw [scanTarget_eq, scanTarget_eq]
    exact ((List.perm_insertionSort findingIdLe _).trans hrr').trans
      (List.perm_insertionSort findingIdLe _).symm
  exact eq_of_perm_of_pairwise_findingIdLt hsp
    (pairwise_findingIdLt hsorted hpw) (pairwise_findingIdLt hsorted' hpw')

/-! ### Concrete scan instances -/

/-- Case-insensitive prefix test, the step of the literal matcher. -/
def ciPrefixOf (pat s : Chars) : Bool :=
  decide (pat.length ≤ s.length) &&
    ((s.take pat.length).map Char.toLower = pat.map Char.toLower)

/-- The exec loop of a RegExp with flags gmi whose pattern is a literal
(no metacharacters): successive non-overlapping case-insensitive
occurrences, left to right; the fuel is an upper bound on the loop count,
one advance per character. -/
def litGo (pat : Chars) : Nat → Chars → Nat → List (Nat × Chars)
  | 0, _, _ => []
  | fuel + 1, c, pos =>
    if pat ≠ [] && ciPrefixOf pat c then
      (pos, c.take pat.length) :: litGo pat fuel (c.drop pat.length) (pos + pat.length)
    else
      match c with
      | [] => []
      | _ :: t => litGo pat fuel t (pos + 1)

/-- The literal regular-expression engine used to instantiate the engine
parameter on concrete inputs. -/
def literalMatches (pat content : Chars) : List (Nat × Chars) :=
  litGo pat (content.length + 1) content 0

/-- A shell rule with the single literal pattern x. -/
def ceRule : Rule where
  id := "R1".data
  title := "t".data
  description := "d".data
  severity := .high
  confidence := .high
  category := "shell".data
  scope := { file_types := ["shell".data] }
  patterns := [{ regex := "x".data, description := "p".data }]
  remediation := "r".data
  tags := none

/-- Metadata mapping the label shell to the extension .sh. -/
def ceMeta : RuleMeta where
  rule_format_version := "1".data
  file_type_extensions := [("shell".data, [".sh".data])]

/-- Two files with the same relative path (for example a file and a
symlink alias elsewhere in the tree) but different contents. -/
def ceFileA : FileEntry where
  absolutePath := "/main/f.sh".data
  relativePath := "f.sh".data
  sizeBytes := 3
  category := "shell".data
  content := "x\na".data

/-- The alias of ceFileA with different content. -/
def ceFileB : FileEntry where
  absolutePath := "/alias/f.sh".data
  relativePath := "f.sh".data
  sizeBytes := 3
  category := "shell".data
  content := "x\nb".data

/-- A yaml.load stand-in for contents that are not YAML mappings. -/
def ceYaml : Chars → Option JsVal := fun _ => none

/-- C4 fails as stated: on two files that share a relative path but differ
in content, both per-file scans produce a finding with the same id (the id
digests rule id, path, line and matched text, none of which differ) but
different snippets; deduplication keeps the first-seen finding, so the two
file orders return different findings lists even though the id sets
agree. -/
theorem scan_order_counterexample :
    scanTarget literalMatches ceYaml [ceFileA, ceFileB] [ceRule] ceMeta
      ≠ scanTarget literalMatches ceYaml [ceFileB, ceFileA] [ceRule] ceMeta ∧
    (scanTarget literalMatches ceYaml [ceFileA, ceFileB] [ceRule] ceMeta).map (·.id)
      = (scanTarget literalMatches ceYaml [ceFileB, ceFileA] [ceRule] ceMeta).map (·.id) := by
  refine ⟨?_, ?_⟩ <;> decide

/-- Two files with distinct relative paths, for the witness. -/
def cwFileA : FileEntry where
  absolutePath := "/w/a.sh".data
  relativePath := "a.sh".data
  sizeBytes := 1
  category := "shell".data
  content := "x".data

/-- Companion file of cwFileA. -/
def cwFileB : FileEntry where
  absolutePath := "/w/b.sh".data
  relativePath := "b.sh".data
  sizeBytes := 1
  category := "shell".data
  content := "x".data

/-- Concrete instantiation of the amended determinism: the scan of two
distinct-path files has pairwise distinct, sorted ids, and scanning them
in either order gives the same findings list. -/
theorem scan_dedup_sorted_deterministic_witness :
    (scanTarget literalMatches ceYaml [cwFileA, cwFileB] [ceRule] ceMeta).Pairwise
      (fun a b => a.id ≠ b.id) ∧
    (scanTarget literalMatches ceYaml [cwFileA, cwFileB] [ceRule] ceMeta).Sorted
      findingIdLe ∧
    scanTarget literalMatches ceYaml [cwFileA, cwFileB] [ceRule] ceMeta
      = scanTarget literalMatches ceYaml [cwFileB, cwFileA] [ceRule] ceMeta :=
  ⟨(scan_dedup_sorted_deterministic literalMatches ceYaml
      [cwFileA, cwFileB] [cwFileB, cwFileA] [ceRule] ceMeta
      (List.Perm.swap cwFileB cwFileA [])).1,
   (scan_dedup_sorted_deterministic literalMatches ceYaml
      [cwFileA, cwFileB] [cwFileB, cwFileA] [ceRule] ceMeta
      (List.Perm.swap cwFileB cwFileA [])).2.1,
   (scan_dedup_sorted_deterministic literalMatches ceYaml
      [cwFileA, cwFileB] [cwFileB, cwFileA] [ceRule] ceMeta
      (List.Perm.swap cwFileB cwFileA [])).2.2 (by decide)⟩

/-! ## Directory walk (src/ingest/file-discovery.ts)

The walk is embedded over a finite model of the filesystem: the real
directories are numbered 0 to numDirs - 1 (an id stands for a resolved
real path, so the visitedDirs set of real paths is a set of ids), each
directory lists its directory entries, and a symlink entry carries the
id (for a directory target) or root-relative path and size (for a file
target) its realpath resolution yields inside the root - none models an
unresolvable or root-escaping target, which the source silently skips.
The recursion of walkDirectory is embedded with an explicit fuel
parameter; that the result is independent of the fuel once the fuel
exceeds the number of real directories is exactly the termination of
the source's recursion, symlink cycles included. -/

/-- A directory entry as the walk sees it (one readdir dirent plus the
stat/realpath information the source queries for it). -/
inductive FsEntry where
  | file (name : String) (sizeBytes : Nat)
  | dir (name : String) (id : Nat)
  | linkDir (name : String) (target : Option Nat)
  | linkFile (name : String) (target : Option (String × Nat))
deriving DecidableEq, Repr

/-- The dirent name, used for the name sort before traversal. -/
def FsEntry.name : FsEntry → String
  | .file n _ => n
  | .dir n _ => n
  | .linkDir n _ => n
  | .linkFile n _ => n

/-- dirent.isDirectory(): true for a real directory dirent only (a symlink
dirent reports false). -/
def FsEntry.isDirectoryDirent : FsEntry → Bool
  | .dir _ _ => true
  | _ => false

/-- A finite filesystem: directory entries and the root-relative real path
of every real directory. -/
structure FsModel where
  numDirs : Nat
  entries : Nat → List FsEntry
  dirPath : Nat → String

/-- Directory references of an entry stay inside the model. -/
def entryTargetOk (fs : FsModel) : FsEntry → Prop
  | .dir _ i => i < fs.numDirs
  | .linkDir _ (some i) => i < fs.numDirs
  | _ => True

instance (fs : FsModel) : DecidablePred (entryTargetOk fs) := fun e => by
  cases e with
  | file n s => exact isTrue trivial
  | dir n i => exact inferInstanceAs (Decidable (i < fs.numDirs))
  | linkDir n t =>
    cases t with
    | none => exact isTrue trivial
    | some i => exact inferInstanceAs (Decidable (i < fs.numDirs))
  | linkFile n t => exact isTrue trivial

/-- Well-formedness of a filesystem model. -/
def FsModel.WF (fs : FsModel) : Prop :=
  ∀ d < fs.numDirs, ∀ e ∈ fs.entries d, entryTargetOk fs e

/-- The walk context: ignore patterns and the size ceiling. -/
structure WalkContext where
  ignorePatterns : List IgnorePattern
  maxFileSize : Nat

/-- Forming the root-relative path of a directory entry (path.join followed
by toRelativePosix). -/
def joinRel (base name : String) : String :=
  if base = "" then name else base ++ "/" ++ name

/-- addFileEntry of src/ingest/file-discovery.ts: drop oversized and
ignored files, emit the relative path otherwise. -/
def addFileEntryModel (ctx : WalkContext) (relativePath : String)
    (sizeBytes : Nat) : List String :=
  if ctx.maxFileSize < sizeBytes then []
  else if shouldIgnore relativePath ctx.ignorePatterns false then []
  else [relativePath]

/-- The name ordering of the dirent sort ((a, b) =>
a.name.localeCompare(b.name)). -/
def direntNameLe (a b : FsEntry) : Prop := jsStrLe a.name b.name

instance : DecidableRel direntNameLe := fun a b => by
  unfold direntNameLe
  infer_instance

mutual

/-- walkDirectory of src/ingest/file-discovery.ts with explicit fuel,
returning (visited set, trace of directories processed, emitted relative
file paths). A directory whose id is already in visited returns at once;
otherwise it is recorded and its entries are walked in name order. -/
def walkFuel (fs : FsModel) (ctx : WalkContext) :
    Nat → Nat → List Nat → List Nat × List Nat × List String
  | 0, _, visited => (visited, [], [])
  | fuel + 1, current, visited =>
    if current ∈ visited then (visited, [], [])
    else
      let sorted := List.insertionSort direntNameLe (fs.entries current)
      let r := walkEntries fs ctx fuel current sorted (current :: visited)
      (r.1, current :: r.2.1, r.2.2)
termination_by fuel _ _ => (fuel, 0)

/-- The dirent loop of walkDirectory: ignore check first (with the
symlink's own location and dirent directory flag), then the symlink,
directory and file branches of the source, threading the visited set. -/
def walkEntries (fs : FsModel) (ctx : WalkContext) :
    Nat → Nat → List FsEntry → List Nat → List Nat × List Nat × List String
  | _, _, [], visited => (visited, [], [])
  | fuel, current, e :: rest, visited =>
    let rel := joinRel (fs.dirPath current) e.name
    if shouldIgnore rel ctx.ignorePatterns e.isDirectoryDirent then
      walkEntries fs ctx fuel current rest visited
    else
      match e with
      | .file _ size =>
        let r := walkEntries fs ctx fuel current rest visited
        (r.1, r.2.1, addFileEntryModel ctx rel size ++ r.2.2)
      | .dir _ id =>
        let r1 := walkFuel fs ctx fuel id visited
        let r2 := walkEntries fs ctx fuel current rest r1.1
        (r2.1, r1.2.1 ++ r2.2.1, r1.2.2 ++ r2.2.2)
      | .linkDir _ none => walkEntries fs ctx fuel current rest visited
      | .linkDir _ (some id) =>
        let r1 := walkFuel fs ctx fuel id visited
        let r2 := walkEntries fs ctx fuel current rest r1.1
        (r2.1, r1.2.1 ++ r2.2.1, r1.2.2 ++ r2.2.2)
      | .linkFile _ none => walkEntries fs ctx fuel current rest visited
      | .linkFile _ (some (resRel, size)) =>
        let r := walkEntries fs ctx fuel current rest visited
        (r.1, r.2.1, addFileEntryModel ctx resRel size ++ r.2.2)
termination_by fuel _ es _ => (fuel, es.length + 1)

end

/-- discoverFiles of src/ingest/file-discovery.ts, on the model: walk from
the root directory and sort the emitted relative paths. -/
def discoverModel (fs : FsModel) (ctx : WalkContext) (fuel root : Nat) : List String :=
  List.insertionSort jsStrLe (walkFuel fs ctx fuel root []).2.2

/-- How many real directories a visited set has not yet recorded. -/
def unvisitedCount (fs : FsModel) (v : List Nat) : Nat :=
  (List.range fs.numDirs).countP fun d => d ∉ v

/-! ### Walk unfolding equations -/

theorem walkFuel_zero (fs : FsModel) (ctx : WalkContext) (cur : Nat) (v : List Nat) :
    walkFuel fs ctx 0 cur v = (v, [], []) := by
  simp [walkFuel]

theorem walkFuel_succ_mem (fs : FsModel) (ctx : WalkContext) (fuel cur : Nat)
    (v : List Nat) (h : cur ∈ v) :
    walkFuel fs ctx (fuel + 1) cur v = (v, [], []) := by
  simp only [walkFuel]
  rw [if_pos h]

theorem walkFuel_succ_new (fs : FsModel) (ctx : WalkContext) (fuel cur : Nat)
    (v : List Nat) (h : cur ∉ v) :
    walkFuel fs ctx (fuel + 1) cur v
      = ((walkEntries fs ctx fuel cur
            (List.insertionSort direntNameLe (fs.entries cur)) (cur :: v)).1,
         cur :: (walkEntries fs ctx fuel cur
            (List.insertionSort direntNameLe (fs.entries cur)) (cur :: v)).2.1,
         (walkEntries fs ctx fuel cur
            (List.insertionSort direntNameLe (fs.entries cur)) (cur :: v)).2.2) := by
  simp only [walkFuel]
  rw [if_neg h]

theorem walkEntries_nil (fs : FsModel) (ctx : WalkContext) (fuel cur : Nat)
    (v : List Nat) : walkEntries fs ctx fuel cur [] v = (v, [], []) := by
  cases fuel <;> simp [walkEntries]

theorem walkEntries_cons_ignored (fs : FsModel) (ctx : WalkContext) (fuel cur : Nat)
    (e : FsEntry) (rest : List FsEntry) (v : List Nat)
    (h : shouldIgnore (joinRel (fs.dirPath cur) e.name) ctx.ignorePatterns
      e.isDirectoryDirent = true) :
    walkEntries fs ctx fuel cur (e :: rest) v = walkEntries fs ctx fuel cur rest v := by
  rcases e with ⟨n, size⟩ | ⟨n, id⟩ | ⟨n, _ | id⟩ | ⟨n, _ | ⟨rr, sz⟩⟩ <;>
    (simp only [FsEntry.name, FsEntry.isDirectoryDirent] at h
     simp only [walkEntries, FsEntry.name, FsEntry.isDirectoryDirent]
     rw [if_pos h])

theorem walkEntries_cons_file (fs : FsModel) (ctx : WalkContext) (fuel cur : Nat)
    (n : String) (size : Nat) (rest : List FsEntry) (v : List Nat)
    (h : ¬ shouldIgnore (joinRel (fs.dirPath cur) n) ctx.ignorePatterns false = true) :
    walkEntries fs ctx fuel cur (.file n size :: rest) v
      = ((walkEntries fs ctx fuel cur rest v).1,
         (walkEntries fs ctx fuel cur rest v).2.1,
         addFileEntryModel ctx (joinRel (fs.dirPath cur) n) size
           ++ (walkEntries fs ctx fuel cur rest v).2.2) := by
  simp only [walkEntries, FsEntry.name, FsEntry.isDirectoryDirent]
  rw [if_neg h]

theorem walkEntries_cons_dir (fs : FsModel) (ctx : WalkContext) (fuel cur : Nat)
    (n : String) (id : Nat) (rest : List FsEntry) (v : List Nat)
    (h : ¬ shouldIgnore (joinRel (fs.dirPath cur) n) ctx.ignorePatterns true = true) :
    walkEntries fs ctx fuel cur (.dir n id :: rest) v
      = ((walkEntries fs ctx fuel cur rest (walkFuel fs ctx fuel id v).1).1,
         (walkFuel fs ctx fuel id v).2.1
           ++ (walkEntries fs ctx fuel cur rest (walkFuel fs ctx fuel id v).1).2.1,
         (walkFuel fs ctx fuel id v).2.2
           ++ (walkEntries fs ctx fuel cur rest (walkFuel fs ctx fuel id v).1).2.2) := by
  simp only [walkEntries, FsEntry.name, FsEntry.isDirectoryDirent]
  rw [if_neg h]

theorem walkEntries_cons_linkDir_none (fs : FsModel) (ctx : WalkContext) (fuel cur : Nat)
    (n : String) (rest : List FsEntry) (v : List Nat)
    (h : ¬ shouldIgnore (joinRel (fs.dirPath cur) n) ctx.ignorePatterns false = true) :
    walkEntries fs ctx fuel cur (.linkDir n none :: rest) v
      = walkEntries fs ctx fuel cur rest v := by
  simp only [walkEntries, FsEntry.name, FsEntry.isDirectoryDirent]
  rw [if_neg h]

theorem walkEntries_cons_linkDir_some (fs : FsModel) (ctx : WalkContext) (fuel cur : Nat)
    (n : String) (id : Nat) (rest : List FsEntry) (v : List Nat)
    (h : ¬ shouldIgnore (joinRel (fs.dirPath cur) n) ctx.ignorePatterns false = true) :
    walkEntries fs ctx fuel cur (.linkDir n (some id) :: rest) v
      = ((walkEntries fs ctx fuel cur rest (walkFuel fs ctx fuel id v).1).1,
         (walkFuel fs ctx fuel id v).2.1
           ++ (walkEntries fs ctx fuel cur rest (walkFuel fs ctx fuel id v).1).2.1,
         (walkFuel fs ctx fuel id v).2.2
           ++ (walkEntries fs ctx fuel cur rest (walkFuel fs ctx fuel id v).1).2.2) := by
  simp only [walkEntries, FsEntry.name, FsEntry.isDirectoryDirent]
  rw [if_neg h]

theorem walkEntries_cons_linkFile_none (fs : FsModel) (ctx : WalkContext) (fuel cur : Nat)
    (n : String) (rest : List FsEntry) (v : List Nat)
    (h : ¬ shouldIgnore (joinRel (fs.dirPath cur) n) ctx.ignorePatterns false = true) :
    walkEntries fs ctx fuel cur (.linkFile n none :: rest) v
      = walkEntries fs ctx fuel cur rest v := by
  simp only [walkEntries, FsEntry.name, FsEntry.isDirectoryDirent]
  rw [if_neg h]

theorem walkEntries_cons_linkFile_some (fs : FsModel) (ctx : WalkContext) (fuel cur : Nat)
    (n : String) (resRel : String) (size : Nat) (rest : List FsEntry) (v : List Nat)
    (h : ¬ shouldIgnore (joinRel (fs.dirPath cur) n) ctx.ignorePatterns false = true) :
    walkEntries fs ctx fuel cur (.linkFile n (some (resRel, size)) :: rest) v
      = ((walkEntries fs ctx fuel cur rest v).1,
         (walkEntries fs ctx fuel cur rest v).2.1,
         addFileEntryModel ctx resRel size
           ++ (walkEntries fs ctx fuel cur rest v).2.2) := by
  simp only [walkEntries, FsEntry.name, FsEntry.isDirectoryDirent]
  rw [if_neg h]

/-! ### Walk invariant: the visited set grows by exactly the trace, and the
trace never repeats a directory or revisits one already in the set -/

/-- Invariant of a walk result relative to the incoming visited set: the
outgoing visited set is the trace (in reverse processing order) on top of
the incoming one, the trace has no duplicates, and no traced directory was
already visited. -/
def WalkInv (r : List Nat × List Nat × List String) (v : List Nat) : Prop :=
  r.1 = r.2.1.reverse ++ v ∧ r.2.1.Nodup ∧ ∀ x ∈ r.2.1, x ∉ v

theorem walkInv_triv (v : List Nat) (fl : List String) : WalkInv (v, [], fl) v := by
  refine ⟨rfl, List.nodup_nil, ?_⟩
  intro x hx
  cases hx

theorem walkInv_seq (r1 r2 : List Nat × List Nat × List String)
    (fl : List String) (v : List Nat)
    (h1 : WalkInv r1 v) (h2 : WalkInv r2 r1.1) :
    WalkInv (r2.1, r1.2.1 ++ r2.2.1, fl) v := by
  obtain ⟨e1, n1, d1⟩ := h1
  obtain ⟨e2, n2, d2⟩ := h2
  refine ⟨?_, ?_, ?_⟩
  · show r2.1 = (r1.2.1 ++ r2.2.1).reverse ++ v
    rw [e2, e1, List.reverse_append, List.append_assoc]
  · rw [List.nodup_append]
    refine ⟨n1, n2, ?_⟩
    intro x hx1 hx2
    have hxin : x ∈ r1.1 := by
      rw [e1]
      exact List.mem_append_left _ (List.mem_reverse.mpr hx1)
    exact d2 x hx2 hxin
  · intro x hx
    rcases List.mem_append.mp hx with hx1 | hx2
    · exact d1 x hx1
    · intro hxv
      exact d2 x hx2 (by rw [e1]; exact List.mem_append_right _ hxv)

theorem walkEntries_inv (fs : FsModel) (ctx : WalkContext) (fuel : Nat)
    (hP : ∀ cur v, WalkInv (walkFuel fs ctx fuel cur v) v) :
    ∀ es cur v, WalkInv (walkEntries fs ctx fuel cur es v) v := by
  intro es
  induction es with
  | nil =>
    intro cur v
    rw [walkEntries_nil]
    exact walkInv_triv v []
  | cons e rest ih =>
    intro cur v
    by_cases hig : shouldIgnore (joinRel (fs.dirPath cur) e.name) ctx.ignorePatterns
        e.isDirectoryDirent = true
    · rw [walkEntries_cons_ignored fs ctx fuel cur e rest v hig]
      exact ih cur v
    · rcases e with ⟨n, size⟩ | ⟨n, id⟩ | ⟨n, t⟩ | ⟨n, t⟩
      · simp only [FsEntry.name, FsEntry.isDirectoryDirent] at hig
        rw [walkEntries_cons_file fs ctx fuel cur n size rest v hig]
        exact ih cur v
      · simp only [FsEntry.name, FsEntry.isDirectoryDirent] at hig
        rw [walkEntries_cons_dir fs ctx fuel cur n id rest v hig]
        exact walkInv_seq (walkFuel fs ctx fuel id v)
          (walkEntries fs ctx fuel cur rest (walkFuel fs ctx fuel id v).1) _ v
          (hP id v) (ih cur (walkFuel fs ctx fuel id v).1)
      · rcases t with _ | id
        · simp only [FsEntry.name, FsEntry.isDirectoryDirent] at hig
          rw [walkEntries_cons_linkDir_none fs ctx fuel cur n rest v hig]
          exact ih cur v
        · simp only [FsEntry.name, FsEntry.isDirectoryDirent] at hig
          rw [walkEntries_cons_linkDir_some fs ctx fuel cur n id rest v hig]
          exact walkInv_seq (walkFuel fs ctx fuel id v)
            (walkEntries fs ctx fuel cur rest (walkFuel fs ctx fuel id v).1) _ v
            (hP id v) (ih cur (walkFuel fs ctx fuel id v).1)
      · rcases t with _ | ⟨rr, sz⟩
        · simp only [FsEntry.name, FsEntry.isDirectoryDirent] at hig
          rw [walkEntries_cons_linkFile_none fs ctx fuel cur n rest v hig]
          exact ih cur v
        · simp only [FsEntry.name, FsEntry.isDirectoryDirent] at hig
          rw [walkEntries_cons_linkFile_some fs ctx fuel cur n rr sz rest v hig]
          exact ih cur v

theorem walkFuel_inv (fs : FsModel) (ctx : WalkContext) :
    ∀ fuel cur v, WalkInv (walkFuel fs ctx fuel cur v) v := by
  intro fuel
  induction fuel with
  | zero =>
    intro cur v
    rw [walkFuel_zero]
    exact walkInv_triv v []
  | succ m ih =>
    intro cur v
    by_cases hmem : cur ∈ v
    · rw [walkFuel_succ_mem fs ctx m cur v hmem]
      exact walkInv_triv v []
    · rw [walkFuel_succ_new fs ctx m cur v hmem]
      obtain ⟨e1, n1, d1⟩ := walkEntries_inv fs ctx m ih
        (List.insertionSort direntNameLe (fs.entries cur)) cur (cur :: v)
      refine ⟨?_, ?_, ?_⟩
      · show _ = (cur :: _).reverse ++ v
        rw [e1, List.reverse_cons, List.append_assoc]
        rfl
      · exact List.nodup_cons.mpr ⟨fun hc => d1 cur hc (List.mem_cons_self cur v), n1⟩
      · intro x hx
        rcases List.mem_cons.mp hx with rfl | hx
        · exact hmem
        · intro hxv
          exact d1 x hx (List.mem_cons_of_mem cur hxv)

theorem walkFuel_visited_sub (fs : FsModel) (ctx : WalkContext) (fuel cur : Nat)
    (v : List Nat) : v ⊆ (walkFuel fs ctx fuel cur v).1 := by
  rw [(walkFuel_inv fs ctx fuel cur v).1]
  exact List.subset_append_right _ _

/-! ### Counting unvisited directories: each new directory strictly shrinks
the count, which bounds the recursion depth -/

theorem countP_lt_of_sep {α : Type} (p q : α → Bool) (l : List α)
    (hpq : ∀ a ∈ l, p a = true → q a = true) (x : α) (hx : x ∈ l)
    (hpx : p x = false) (hqx : q x = true) : l.countP p < l.countP q := by
  induction l with
  | nil => cases hx
  | cons a as ih =>
    rw [List.countP_cons, List.countP_cons]
    rcases List.mem_cons.mp hx with rfl | hxs
    · have hle : as.countP p ≤ as.countP q :=
        List.countP_mono_left (fun b hb h => hpq b (List.mem_cons_of_mem _ hb) h)
      rw [hpx, hqx, if_neg (by simp), if_pos rfl]
      omega
    · have h1 := ih (fun b hb h => hpq b (List.mem_cons_of_mem _ hb) h) hxs
      by_cases hpa : p a = true
      · rw [if_pos hpa, if_pos (hpq a (List.mem_cons_self a as) hpa)]
        omega
      · rw [if_neg hpa]
        by_cases hqa : q a = true
        · rw [if_pos hqa]
          omega
        · rw [if_neg hqa]
          omega

theorem unvisited_mono (fs : FsModel) (v w : List Nat) (h : v ⊆ w) :
    unvisitedCount fs w ≤ unvisitedCount fs v := by
  unfold unvisitedCount
  apply List.countP_mono_left
  intro d _ hd
  rw [decide_eq_true_eq] at hd
  exact decide_eq_true (fun hdv => hd (h hdv))

theorem unvisited_strict (fs : FsModel) (cur : Nat) (v : List Nat)
    (hcur : cur < fs.numDirs) (hv : cur ∉ v) :
    unvisitedCount fs (cur :: v) < unvisitedCount fs v := by
  unfold unvisitedCount
  refine countP_lt_of_sep _ _ _ ?_ cur (List.mem_range.mpr hcur) ?_ ?_
  · intro a _ ha
    rw [decide_eq_true_eq] at ha
    exact decide_eq_true (fun h => ha (List.mem_cons_of_mem cur h))
  · exact decide_eq_false (fun h => h (List.mem_cons_self cur v))
  · exact decide_eq_true hv

/-! ### Stabilization: with enough fuel the walk result no longer depends on
the fuel, which is the termination of the source's unbounded recursion -/

theorem walkEntries_stab (fs : FsModel) (ctx : WalkContext) (k : Nat)
    (hstab : ∀ m₁ m₂ cur v, cur < fs.numDirs → unvisitedCount fs v ≤ k →
      k < m₁ → k < m₂ → walkFuel fs ctx m₁ cur v = walkFuel fs ctx m₂ cur v) :
    ∀ es, (∀ e ∈ es, entryTargetOk fs e) → ∀ m₁ m₂ cur v,
      unvisitedCount fs v ≤ k → k < m₁ → k < m₂ →
      walkEntries fs ctx m₁ cur es v = walkEntries fs ctx m₂ cur es v := by
  intro es
  induction es with
  | nil =>
    intro _ m₁ m₂ cur v _ _ _
    rw [walkEntries_nil, walkEntries_nil]
  | cons e rest ih =>
    intro hes m₁ m₂ cur v hv h₁ h₂
    have hrest : ∀ e ∈ rest, entryTargetOk fs e :=
      fun e he => hes e (List.mem_cons_of_mem _ he)
    by_cases hig : shouldIgnore (joinRel (fs.dirPath cur) e.name) ctx.ignorePatterns
        e.isDirectoryDirent = true
    · rw [walkEntries_cons_ignored fs ctx m₁ cur e rest v hig,
          walkEntries_cons_ignored fs ctx m₂ cur e rest v hig]
      exact ih hrest m₁ m₂ cur v hv h₁ h₂
    · rcases e with ⟨n, size⟩ | ⟨n, id⟩ | ⟨n, t⟩ | ⟨n, t⟩
      · simp only [FsEntry.name, FsEntry.isDirectoryDirent] at hig
        rw [walkEntries_cons_file fs ctx m₁ cur n size rest v hig,
            walkEntries_cons_file fs ctx m₂ cur n size rest v hig,
            ih hrest m₁ m₂ cur v hv h₁ h₂]
      · simp only [FsEntry.name, FsEntry.isDirectoryDirent] at hig
        have hid : id < fs.numDirs := hes (.dir n id) (List.mem_cons_self _ _)
        have hw := hstab m₁ m₂ id v hid hv h₁ h₂
        rw [walkEntries_cons_dir fs ctx m₁ cur n id rest v hig,
            walkEntries_cons_dir fs ctx m₂ cur n id rest v hig, hw]
        have hv' : unvisitedCount fs (walkFuel fs ctx m₂ id v).1 ≤ k :=
          le_trans (unvisited_mono fs v _ (walkFuel_visited_sub fs ctx m₂ id v)) hv
        rw [ih hrest m₁ m₂ cur _ hv' h₁ h₂]
      · rcases t with _ | id
        · simp only [FsEntry.name, FsEntry.isDirectoryDirent] at hig
          rw [walkEntries_cons_linkDir_none fs ctx m₁ cur n rest v hig,
              walkEntries_cons_linkDir_none fs ctx m₂ cur n rest v hig]
          exact ih hrest m₁ m₂ cur v hv h₁ h₂
        · simp only [FsEntry.name, FsEntry.isDirectoryDirent] at hig
          have hid : id < fs.numDirs := hes (.linkDir n (some id)) (List.mem_cons_self _ _)
          have hw := hstab m₁ m₂ id v hid hv h₁ h₂
          rw [walkEntries_cons_linkDir_some fs ctx m₁ cur n id rest v hig,
              walkEntries_cons_linkDir_some fs ctx m₂ cur n id rest v hig, hw]
          have hv' : unvisitedCount fs (walkFuel fs ctx m₂ id v).1 ≤ k :=
            le_trans (unvisited_mono fs v _ (walkFuel_visited_sub fs ctx m₂ id v)) hv
          rw [ih hrest m₁ m₂ cur _ hv' h₁ h₂]
      · rcases t with _ | ⟨rr, sz⟩
        · simp only [FsEntry.name, FsEntry.isDirectoryDirent] at hig
          rw [walkEntries_cons_linkFile_none fs ctx m₁ cur n rest v hig,
              walkEntries_cons_linkFile_none fs ctx m₂ cur n rest v hig]
          exact ih hrest m₁ m₂ cur v hv h₁ h₂
        · simp only [FsEntry.name, FsEntry.isDirectoryDirent] at hig
          rw [walkEntries_cons_linkFile_some fs ctx m₁ cur n rr sz rest v hig,
              walkEntries_cons_linkFile_some fs ctx m₂ cur n rr sz rest v hig,
              ih hrest m₁ m₂ cur v hv h₁ h₂]

theorem walk_stab (fs : FsModel) (ctx : WalkContext) (hwf : fs.WF) :
    ∀ n m₁ m₂ cur v, cur < fs.numDirs → unvisitedCount fs v ≤ n →
      n < m₁ → n < m₂ → walkFuel fs ctx m₁ cur v = walkFuel fs ctx m₂ cur v := by
  intro n
  induction n using Nat.strong_induction_on with
  | _ n ih =>
    intro m₁ m₂ cur v hcur hv h₁ h₂
    obtain ⟨k₁, rfl⟩ : ∃ k, m₁ = k + 1 := ⟨m₁ - 1, by omega⟩
    obtain ⟨k₂, rfl⟩ : ∃ k, m₂ = k + 1 := ⟨m₂ - 1, by omega⟩
    by_cases hmem : cur ∈ v
    · rw [walkFuel_succ_mem fs ctx k₁ cur v hmem, walkFuel_succ_mem fs ctx k₂ cur v hmem]
    · rw [walkFuel_succ_new fs ctx k₁ cur v hmem, walkFuel_succ_new fs ctx k₂ cur v hmem]
      have hstrict : unvisitedCount fs (cur :: v) < unvisitedCount fs v :=
        unvisited_strict fs cur v hcur hmem
      have hstabk : ∀ a b c w, c < fs.numDirs → unvisitedCount fs w ≤ n - 1 →
          n - 1 < a → n - 1 < b → walkFuel fs ctx a c w = walkFuel fs ctx b c w :=
        fun a b c w hc hw ha hb => ih (n - 1) (by omega) a b c w hc hw ha hb
      have hsorted : ∀ e ∈ List.insertionSort direntNameLe (fs.entries cur),
          entryTargetOk fs e := by
        intro e he
        rw [List.mem_insertionSort] at he
        exact hwf cur hcur e he
      rw [walkEntries_stab fs ctx (n - 1) hstabk _ hsorted k₁ k₂ cur (cur :: v)
        (by omega) (by omega) (by omega)]

/-- The cycle-proof sample filesystem: the root directory holds a symlink
into a subdirectory and a file, and the subdirectory holds a symlink back
to the root, so following the symlinks naively never terminates. -/
def cycFs : FsModel where
  numDirs := 2
  entries := fun d => match d with
    | 0 => [FsEntry.linkDir "loop" (some 1), FsEntry.file "a.txt" 10]
    | 1 => [FsEntry.linkDir "back" (some 0), FsEntry.file "b.txt" 20]
    | _ => []
  dirPath := fun d => match d with
    | 0 => ""
    | 1 => "sub"
    | _ => ""

/-- A walk context with no ignore rules and a generous size ceiling. -/
def cycCtx : WalkContext where
  ignorePatterns := []
  maxFileSize := 1000000

/-- C10: the traversal records every resolved real directory in the visited
set and returns at once for a directory already in the set, so each real
directory is walked at most once (the trace of processed directories has no
duplicates) and the walk terminates even when symlinks form cycles or point
at ancestors: once the fuel exceeds the number of real directories, the walk
result - and hence the discovered file list - no longer depends on the fuel,
which is exactly the termination of the source's unbounded recursion. -/
theorem walk_terminates_and_visits_once (fs : FsModel) (ctx : WalkContext)
    (hwf : fs.WF) (root : Nat) (hroot : root < fs.numDirs) (fuel₁ fuel₂ : Nat)
    (h₁ : fs.numDirs < fuel₁) (h₂ : fs.numDirs < fuel₂) :
    walkFuel fs ctx fuel₁ root [] = walkFuel fs ctx fuel₂ root [] ∧
    (walkFuel fs ctx fuel₁ root []).2.1.Nodup ∧
    (∀ cur v, cur ∈ v → walkFuel fs ctx fuel₁ cur v = (v, [], [])) ∧
    discoverModel fs ctx fuel₁ root = discoverModel fs ctx fuel₂ root := by
  obtain ⟨k₁, rfl⟩ : ∃ k, fuel₁ = k + 1 := ⟨fuel₁ - 1, by omega⟩
  have hcnt : unvisitedCount fs ([] : List Nat) ≤ fs.numDirs := by
    unfold unvisitedCount
    calc (List.range fs.numDirs).countP _ ≤ (List.range fs.numDirs).length :=
          List.countP_le_length _
      _ = fs.numDirs := List.length_range _
  have heq := walk_stab fs ctx hwf fs.numDirs (k₁ + 1) fuel₂ root [] hroot hcnt h₁ h₂
  refine ⟨heq, (walkFuel_inv fs ctx (k₁ + 1) root []).2.1, ?_, ?_⟩
  · intro cur v hv
    exact walkFuel_succ_mem fs ctx k₁ cur v hv
  · unfold discoverModel
    rw [heq]

/-- Witness for C10 on the cyclic two-directory filesystem, at fuels 3 and
100. -/
theorem walk_terminates_witness :
    cycFs.WF ∧ 0 < cycFs.numDirs ∧ cycFs.numDirs < 3 ∧ cycFs.numDirs < 100 ∧
    (walkFuel cycFs cycCtx 3 0 [] = walkFuel cycFs cycCtx 100 0 [] ∧
     (walkFuel cycFs cycCtx 3 0 []).2.1.Nodup ∧
     (∀ cur v, cur ∈ v → walkFuel cycFs cycCtx 3 cur v = (v, [], [])) ∧
     discoverModel cycFs cycCtx 3 0 = discoverModel cycFs cycCtx 100 0) :=
  ⟨by unfold FsModel.WF; decide, by decide, by decide, by decide,
   walk_terminates_and_visits_once cycFs cycCtx (by unfold FsModel.WF; decide) 0
     (by decide) 3 100 (by decide) (by decide)⟩

end OpenGuard
